import Mathlib

/-!
Verification development for the webcam recorder's streaming/recording core
(`webcam_recorder.py`).  The single long-lived streaming loop is embedded as a
step function over an explicit recorder state: the filesystem of the archive
directory is an association list from paths to chunk lists, external inputs
(chunks read from the capture process, observed `is_recording` values, clock
readings, and injected I/O failures) drive each iteration, and the observable
behaviour (chunks delivered to the transcode process, log lines, cooldown
sleeps, process spawns, completed-segment renames) is collected in a trace.

Paths are lists of characters.  `pyWithSuffix` embeds Python's
`PurePath.with_suffix`: the portion of the file name from the last dot is
replaced, provided that dot is neither the first nor the last character of the
name; otherwise the new suffix is appended.  The timestamp formatting of
`datetime.strftime` is abstracted as a parameter `tsStr : Nat → FPath` of the
loop (seconds to formatted string).
-/

abbrev Chunk := Nat

abbrev FPath := List Char

def splitLastDot : List Char → Option (List Char × List Char)
  | [] => none
  | c :: cs =>
    match splitLastDot cs with
    | some (b, a) => some (c :: b, a)
    | none => if c = '.' then some ([], cs) else none

def pyWithSuffix (name : FPath) (suf : FPath) : FPath :=
  match splitLastDot name with
  | some (b, a) => if b = [] ∨ a = [] then name ++ suf else b ++ suf
  | none => name ++ suf

def hasPre : FPath → FPath → Bool
  | [], _ => true
  | _ :: _, [] => false
  | a :: as, b :: bs => if a = b then hasPre as bs else false

def hasSuf (suf p : FPath) : Bool := hasPre suf.reverse p.reverse

/-- A path matching the final naming pattern `raw_*.h264`. -/
def matchesFinal (p : FPath) : Bool := hasPre "raw_".data p && hasSuf ".h264".data p

/-- Final archive path for a formatted timestamp: `raw_<timestamp>.h264`
(line 179 of the source). -/
def finalNameOf (ts : FPath) : FPath := "raw_".data ++ ts ++ ".h264".data

/-- Staging path: `current_file_path.with_suffix('.tmp')` (line 180). -/
def stagingNameOf (ts : FPath) : FPath := pyWithSuffix (finalNameOf ts) ".tmp".data

/-! ### Filesystem model: association list from path to file content -/

abbrev FSys := List (FPath × List Chunk)

def lookupA (p : FPath) : FSys → Option (List Chunk)
  | [] => none
  | e :: l => if e.1 = p then some e.2 else lookupA p l

def eraseA (p : FPath) : FSys → FSys
  | [] => []
  | e :: l => if e.1 = p then eraseA p l else e :: eraseA p l

def appendA (p : FPath) (c : Chunk) : FSys → FSys
  | [] => []
  | e :: l => if e.1 = p then (e.1, e.2 ++ [c]) :: appendA p c l else e :: appendA p c l

def existsA (p : FPath) (fs : FSys) : Bool := (lookupA p fs).isSome

/-- `open(path, 'wb')`: create or truncate. -/
def createA (p : FPath) (fs : FSys) : FSys := (p, []) :: eraseA p fs

/-- `Path.rename`: move content from `src` to `dst`, overwriting `dst`. -/
def renameA (src dst : FPath) (fs : FSys) : FSys :=
  match lookupA src fs with
  | none => fs
  | some v => (dst, v) :: eraseA dst (eraseA src fs)

def lookupD (fs : FSys) (p : FPath) : List Chunk := (lookupA p fs).getD []

/-! ### The streaming loop state and inputs -/

structure Config where
  segment_duration : Nat
deriving DecidableEq

/-- Per-chunk-iteration external input: the bytes read from the capture
process (`none` models an empty read, i.e. end of stream), whether writing to
the transcode stdin raises, the observed `is_recording` flag, the clock in
seconds, and whether the archive write or the staging rename raises. -/
structure ChunkIn where
  data : Option Chunk
  hlsFail : Bool
  recFlag : Bool
  now : Nat
  writeFail : Bool
  renameFail : Bool
deriving DecidableEq

/-- Mutable recorder state touched by the loop: `self.current_file_handle`
(as the staging path the open handle writes to), the loop locals
`current_segment_start` and `current_file_path`, and the archive directory. -/
structure RSt where
  handle : Option FPath
  segStart : Option Nat
  segPath : Option FPath
  fs : FSys
deriving DecidableEq

inductive Ev
  | iterStart
  | cleanWarn
  | spawn
  | hls (c : Chunk)
  | hlsWarn
  | segDone (p : FPath)
  | loopError
  | camFailError
  | sleep (n : Nat)
deriving DecidableEq

inductive ExcKind
  | writeErr
  | renameErr
deriving DecidableEq

inductive StepRes
  | cont (s : RSt) (tr : List Ev)
  | brk (s : RSt) (tr : List Ev)
  | exc (s : RSt) (tr : List Ev) (e : ExcKind)
deriving DecidableEq

def StepRes.st : StepRes → RSt
  | .cont s _ => s
  | .brk s _ => s
  | .exc s _ _ => s

def StepRes.tr : StepRes → List Ev
  | .cont _ t => t
  | .brk _ t => t
  | .exc _ t _ => t

/-- `current_segment_start is None or (now - start).total_seconds() >=
segment_duration * 60` (lines 167-168). -/
def rotateDue (cfg : Config) (segStart : Option Nat) (now : Nat) : Bool :=
  match segStart with
  | none => true
  | some t => cfg.segment_duration * 60 ≤ now - t

/-- Lines 173-175 and 194-196: `if current_file_path and
current_file_path.with_suffix('.tmp').exists(): rename; log`.  Returns `none`
when the attempted rename raises. -/
def renameIfStaged (s : RSt) (renameFail : Bool) : Option (RSt × List Ev) :=
  match s.segPath with
  | none => some (s, [])
  | some p =>
    if existsA (pyWithSuffix p ".tmp".data) s.fs then
      if renameFail then none
      else some ({ s with fs := renameA (pyWithSuffix p ".tmp".data) p s.fs }, [Ev.segDone p])
    else some (s, [])

/-- Lines 185-188: `if self.current_file_handle: write(chunk); flush()`.
A raising write yields an exception result. -/
def writeToSegment (s : RSt) (tr : List Ev) (writeFail : Bool) (c : Chunk) : StepRes :=
  match s.handle with
  | none => .cont s tr
  | some h =>
    if writeFail then .exc s tr .writeErr
    else .cont { s with fs := appendA h c s.fs } tr

/-- One iteration of the inner `while True` relay loop (lines 151-198). -/
def chunkIteration (cfg : Config) (tsStr : Nat → FPath) (s : RSt) (i : ChunkIn) : StepRes :=
  match i.data with
  | none => .brk s []
  | some c =>
    if i.hlsFail then .brk s [Ev.hlsWarn]
    else
      if i.recFlag then
        if rotateDue cfg s.segStart i.now then
          match (match s.handle with
                 | none => some (s, ([] : List Ev))
                 | some _ => renameIfStaged s i.renameFail) with
          | none => .exc s [Ev.hls c] .renameErr
          | some (s1, tr1) =>
            let finp := finalNameOf (tsStr i.now)
            let tmpp := pyWithSuffix finp ".tmp".data
            let s2 : RSt :=
              { handle := some tmpp, segStart := some i.now, segPath := some finp,
                fs := createA tmpp s1.fs }
            writeToSegment s2 (Ev.hls c :: tr1) i.writeFail c
        else
          writeToSegment s [Ev.hls c] i.writeFail c
      else
        match s.handle with
        | none => .cont s [Ev.hls c]
        | some _ =>
          let s1 : RSt := { s with handle := none }
          match renameIfStaged s1 i.renameFail with
          | none => .exc s1 [Ev.hls c] .renameErr
          | some (s2, tr2) =>
            .cont { s2 with segStart := none, segPath := none } (Ev.hls c :: tr2)

inductive InnerRes
  | finished (s : RSt) (tr : List Ev)
  | raised (s : RSt) (tr : List Ev) (e : ExcKind)
deriving DecidableEq

def InnerRes.st : InnerRes → RSt
  | .finished s _ => s
  | .raised s _ _ => s

def InnerRes.tr : InnerRes → List Ev
  | .finished _ t => t
  | .raised _ t _ => t

def InnerRes.raisedKind : InnerRes → Option ExcKind
  | .finished _ _ => none
  | .raised _ _ e => some e

/-- The inner relay loop run over a stream of iteration inputs; exhausting the
input list models the capture stream ending (an empty read breaks the loop). -/
def relayLoop (cfg : Config) (tsStr : Nat → FPath) : RSt → List ChunkIn → InnerRes
  | s, [] => .finished s []
  | s, i :: rest =>
    match chunkIteration cfg tsStr s i with
    | .cont s1 tr =>
      match relayLoop cfg tsStr s1 rest with
      | .finished s2 tr2 => .finished s2 (tr ++ tr2)
      | .raised s2 tr2 e => .raised s2 (tr ++ tr2) e
    | .brk s1 tr => .finished s1 tr
    | .exc s1 tr e => .raised s1 tr e

/-- Per-outer-iteration input: whether cleaning stale HLS output raises
(caught inside `_clean_old_hls_segments`), whether spawning the pipeline
raises, the chunk-iteration inputs, the capture process's exit status, and the
`self.state != "disconnected"` observation at line 205. -/
structure OuterIn where
  cleanFail : Bool
  spawnFail : Bool
  chunks : List ChunkIn
  camRet : Int
  aliveAfter : Bool
deriving DecidableEq

/-- One iteration of the outer `while self.state != "disconnected"` loop
(lines 111-211): clean stale HLS output, spawn the pipeline, run the relay,
wait for the processes; any exception is caught at the loop boundary, logged,
and followed by a 5 second sleep, as is a non-zero capture exit status. -/
def outerIteration (cfg : Config) (tsStr : Nat → FPath) (st : RSt) (oin : OuterIn) :
    RSt × List Ev :=
  let cleanTr : List Ev := if oin.cleanFail then [Ev.cleanWarn] else []
  if oin.spawnFail then
    (st, Ev.iterStart :: cleanTr ++ [Ev.loopError, Ev.sleep 5])
  else
    match relayLoop cfg tsStr { st with segStart := none, segPath := none } oin.chunks with
    | .raised s tr _ =>
      (s, Ev.iterStart :: cleanTr ++ Ev.spawn :: tr ++ [Ev.loopError, Ev.sleep 5])
    | .finished s tr =>
      if oin.camRet ≠ 0 ∧ oin.aliveAfter = true then
        (s, Ev.iterStart :: cleanTr ++ Ev.spawn :: tr ++ [Ev.camFailError, Ev.sleep 5])
      else
        (s, Ev.iterStart :: cleanTr ++ Ev.spawn :: tr)

/-- The outer recovery loop; each element pairs the `self.state !=
"disconnected"` observation at the loop head with that iteration's inputs. -/
def cameraStreamingLoop (cfg : Config) (tsStr : Nat → FPath) :
    RSt → List (Bool × OuterIn) → RSt × List Ev
  | st, [] => (st, [])
  | st, (alive, oin) :: rest =>
    if alive then
      let p := outerIteration cfg tsStr st oin
      let q := cameraStreamingLoop cfg tsStr p.1 rest
      (q.1, p.2 ++ q.2)
    else (st, [])

def initRSt : RSt := { handle := none, segStart := none, segPath := none, fs := [] }

/-! ### Shutdown path: `stop_camera_streaming` (lines 76-98) -/

inductive StopEv
  | stopLog
  | term (cam : Bool)
  | waitB (cam : Bool) (timeout : Nat) (expired : Bool)
  | kill (cam : Bool)
  | waitU (cam : Bool)
  | closeFile
deriving DecidableEq

/-- Stopping one process: `terminate(); wait(timeout=10)`, escalating to
`kill(); wait()` when the graceful wait expires.  `graceful` is the
environment's choice of whether the process exits within the timeout. -/
def stopProc (cam : Bool) (graceful : Bool) : List StopEv :=
  if graceful then [StopEv.term cam, StopEv.waitB cam 10 false]
  else [StopEv.term cam, StopEv.waitB cam 10 true, StopEv.kill cam, StopEv.waitU cam]

structure RecorderSt where
  loopSt : RSt
  camera : Bool
  ffmpeg : Bool
deriving DecidableEq

structure StopIn where
  camGraceful : Bool
  ffGraceful : Bool
deriving DecidableEq

def stop_camera_streaming (r : RecorderSt) (inp : StopIn) : RecorderSt × List StopEv :=
  let camEvs := if r.camera then stopProc true inp.camGraceful else []
  let ffEvs := if r.ffmpeg then stopProc false inp.ffGraceful else []
  let fileEvs : List StopEv := if r.loopSt.handle.isSome then [StopEv.closeFile] else []
  ({ loopSt := { r.loopSt with handle := none }, camera := false, ffmpeg := false },
   StopEv.stopLog :: camEvs ++ ffEvs ++ fileEvs)

/-- `on_disconnected` (lines 213-215) stops the camera streaming. -/
def on_disconnected (r : RecorderSt) (inp : StopIn) : RecorderSt × List StopEv :=
  stop_camera_streaming r inp

/-! ### The settable `is_recording` control (lines 61-66) -/

structure JobCtl where
  is_recording : Bool
  toggleLog : List Bool
deriving DecidableEq

def set_is_recording (j : JobCtl) (value : Bool) : JobCtl :=
  if value = j.is_recording then j
  else { is_recording := value, toggleLog := j.toggleLog ++ [value] }

/-! ### Trace observables -/

def segDones : List Ev → List FPath
  | [] => []
  | Ev.segDone p :: tr => p :: segDones tr
  | _ :: tr => segDones tr

def countIterStart : List Ev → Nat
  | [] => 0
  | Ev.iterStart :: tr => countIterStart tr + 1
  | _ :: tr => countIterStart tr

def countSpawn : List Ev → Nat
  | [] => 0
  | Ev.spawn :: tr => countSpawn tr + 1
  | _ :: tr => countSpawn tr

def openContent (s : RSt) : List Chunk :=
  match s.handle with
  | none => []
  | some h => lookupD s.fs h

/-- The chunks read while `is_recording` was observed true. -/
def enabledChunks : List ChunkIn → List Chunk
  | [] => []
  | i :: rest =>
    match i.data, i.recFlag with
    | some c, true => c :: enabledChunks rest
    | _, _ => enabledChunks rest

/-- A demonstration timestamp formatter for concrete runs: injective and free
of dots, like the real `%Y-%m-%d_%H-%M-%S` format. -/
def tsDemo (n : Nat) : FPath := List.replicate (n + 1) 't'

def cfgD : Config := { segment_duration := 15 }

/-- Events that the relay (inner loop) itself can emit. -/
def isRelayEv : Ev → Bool
  | Ev.hls _ => true
  | Ev.hlsWarn => true
  | Ev.segDone _ => true
  | _ => false

/-- A well-formed chunk-iteration input with no injected failure. -/
def ciok (c : Chunk) (n : Nat) (rec : Bool) : ChunkIn :=
  { data := some c, hlsFail := false, recFlag := rec, now := n,
    writeFail := false, renameFail := false }

/-- An input whose archive write raises an I/O error. -/
def ciWriteFail (c : Chunk) (n : Nat) : ChunkIn :=
  { data := some c, hlsFail := false, recFlag := true, now := n,
    writeFail := true, renameFail := false }

/-- An input whose write to the transcode stdin raises. -/
def ciHlsFail (c : Chunk) (n : Nat) : ChunkIn :=
  { data := some c, hlsFail := true, recFlag := false, now := n,
    writeFail := false, renameFail := false }

/-- An outer-iteration input with the given chunk inputs and no other fault. -/
def oinOf (l : List ChunkIn) : OuterIn :=
  { cleanFail := false, spawnFail := false, chunks := l, camRet := 0, aliveAfter := true }

/-- No file matching the final `raw_*.h264` pattern is empty. -/
def noEmptyFinal (fs : FSys) : Prop :=
  ∀ p cs, lookupA p fs = some cs → matchesFinal p = true → cs ≠ []

/-- Loop-internal coherence: an open segment's staging file is the one the
handle writes to and already holds at least one chunk. -/
def segCoherent (s : RSt) : Prop :=
  ∀ p, s.segPath = some p →
    s.handle = some (pyWithSuffix p ".tmp".data) ∧
    ∃ cs, lookupA (pyWithSuffix p ".tmp".data) s.fs = some cs ∧ cs ≠ []

/-- Ghost view of a failure-free run's archive: the closed segments in
promotion order, each as (open time, content). -/
def renderClosed (tsStr : Nat → FPath) (closed : List (Nat × List Chunk)) : FSys :=
  closed.reverse.map (fun x => (finalNameOf (tsStr x.1), x.2))

/-- Filesystem part contributed by the optionally open segment. -/
def renderCur (tsStr : Nat → FPath) : Option (Nat × List Chunk) → FSys
  | none => []
  | some x => [(stagingNameOf (tsStr x.1), x.2)]

/-- Recorder state described by a ghost view. -/
def renderSt (tsStr : Nat → FPath) (closed : List (Nat × List Chunk))
    (cur : Option (Nat × List Chunk)) : RSt :=
  { handle := cur.map (fun x => stagingNameOf (tsStr x.1)),
    segStart := cur.map (fun x => x.1),
    segPath := cur.map (fun x => finalNameOf (tsStr x.1)),
    fs := renderCur tsStr cur ++ renderClosed tsStr closed }

/-- The segment-open times of a ghost view, in order. -/
def stamps (closed : List (Nat × List Chunk)) : Option (Nat × List Chunk) → List Nat
  | none => closed.map Prod.fst
  | some x => closed.map Prod.fst ++ [x.1]

def curContent : Option (Nat × List Chunk) → List Chunk
  | none => []
  | some x => x.2

/-- Concatenated contents of the closed segments, in promotion order. -/
def segContents : List (Nat × List Chunk) → List Chunk
  | [] => []
  | x :: l => x.2 ++ segContents l

/-! ## Lemmas about path manipulation -/

theorem splitLastDot_of_not_mem : ∀ {cs : List Char}, '.' ∉ cs → splitLastDot cs = none
  | [], _ => rfl
  | c :: cs, h => by
    have h1 : ¬ c = '.' := fun hc => h (hc ▸ List.mem_cons_self c cs)
    have h2 : '.' ∉ cs := fun hm => h (List.mem_cons_of_mem c hm)
    simp [splitLastDot, splitLastDot_of_not_mem h2, if_neg h1]

theorem splitLastDot_append : ∀ (xs ys : List Char), '.' ∉ ys →
    splitLastDot (xs ++ '.' :: ys) = some (xs, ys)
  | [], ys, h => by simp [splitLastDot, splitLastDot_of_not_mem h]
  | x :: xs, ys, h => by simp [splitLastDot, splitLastDot_append xs ys h]

theorem stagingNameOf_eq (ts : FPath) :
    stagingNameOf ts = "raw_".data ++ ts ++ ".tmp".data := by
  have hd : ".h264".data = '.' :: "h264".data := by decide
  have hnd : '.' ∉ "h264".data := by decide
  unfold stagingNameOf finalNameOf pyWithSuffix
  rw [hd, splitLastDot_append _ _ hnd]
  have hne : ¬ ("raw_".data ++ ts = [] ∨ "h264".data = []) := by
    rintro (h | h)
    · simp at h
    · exact absurd h (by decide)
  simp [if_neg hne]

theorem hasPre_append : ∀ (xs ys : FPath), hasPre xs (xs ++ ys) = true
  | [], _ => rfl
  | x :: xs, ys => by simp [hasPre, hasPre_append xs ys]

theorem hasSuf_append (xs ys : FPath) : hasSuf ys (xs ++ ys) = true := by
  unfold hasSuf
  rw [List.reverse_append]
  exact hasPre_append _ _

theorem matchesFinal_finalNameOf (ts : FPath) : matchesFinal (finalNameOf ts) = true := by
  have h1 : hasPre "raw_".data (finalNameOf ts) = true := by
    unfold finalNameOf
    rw [List.append_assoc]
    exact hasPre_append _ _
  have h2 : hasSuf ".h264".data (finalNameOf ts) = true := by
    unfold finalNameOf
    exact hasSuf_append _ _
  simp [matchesFinal, h1, h2]

theorem hasSuf_h264_tmp (x : FPath) : hasSuf ".h264".data (x ++ ".tmp".data) = false := by
  unfold hasSuf
  rw [List.reverse_append]
  have h1 : ".h264".data.reverse = '4' :: "62h.".data := by decide
  have h2 : ".tmp".data.reverse = 'p' :: "mt.".data := by decide
  rw [h1, h2]
  simp [hasPre]

theorem pyWithSuffix_shape (name suf : FPath) : ∃ x, pyWithSuffix name suf = x ++ suf := by
  unfold pyWithSuffix
  split
  · split
    · exact ⟨name, rfl⟩
    · exact ⟨_, rfl⟩
  · exact ⟨name, rfl⟩

theorem matchesFinal_pyWithSuffix_tmp (name : FPath) :
    matchesFinal (pyWithSuffix name ".tmp".data) = false := by
  obtain ⟨x, hx⟩ := pyWithSuffix_shape name ".tmp".data
  rw [hx]
  unfold matchesFinal
  rw [hasSuf_h264_tmp]
  simp

theorem matchesFinal_stagingNameOf (ts : FPath) : matchesFinal (stagingNameOf ts) = false :=
  matchesFinal_pyWithSuffix_tmp _

theorem stagingNameOf_ne_finalNameOf (ts ts' : FPath) : stagingNameOf ts ≠ finalNameOf ts' := by
  intro h
  have h1 := matchesFinal_stagingNameOf ts
  rw [h, matchesFinal_finalNameOf] at h1
  exact absurd h1 (by simp)

theorem pyWithSuffix_tmp_ne_finalNameOf (name ts : FPath) :
    pyWithSuffix name ".tmp".data ≠ finalNameOf ts := by
  intro h
  have h1 := matchesFinal_pyWithSuffix_tmp name
  rw [h, matchesFinal_finalNameOf] at h1
  exact absurd h1 (by simp)

theorem finalNameOf_injective : Function.Injective finalNameOf := by
  intro a b h
  unfold finalNameOf at h
  rw [List.append_assoc, List.append_assoc] at h
  exact List.append_cancel_right (List.append_cancel_left h)

/-! ## Lemmas about the filesystem model -/

theorem lookupA_eraseA (p q : FPath) : ∀ l : FSys,
    lookupA p (eraseA q l) = if p = q then none else lookupA p l
  | [] => by simp [eraseA, lookupA]
  | e :: l => by
    by_cases h1 : e.1 = q
    · by_cases h2 : p = q
      · simp [eraseA, if_pos h1, lookupA_eraseA p q l, if_pos h2]
      · have h3 : ¬ e.1 = p := by rw [h1]; intro hh; exact h2 hh.symm
        simp [eraseA, if_pos h1, lookupA_eraseA p q l, if_neg h2, lookupA, if_neg h3]
    · by_cases h3 : e.1 = p
      · have h2 : ¬ p = q := fun hpq => h1 (h3.trans hpq)
        simp [eraseA, if_neg h1, lookupA, if_pos h3, if_neg h2]
      · simp [eraseA, if_neg h1, lookupA, if_neg h3, lookupA_eraseA p q l]

theorem lookupA_appendA (p q : FPath) (c : Chunk) : ∀ l : FSys,
    lookupA p (appendA q c l) =
      if p = q then (lookupA p l).map (fun v => v ++ [c]) else lookupA p l
  | [] => by simp [appendA, lookupA]
  | e :: l => by
    by_cases h1 : e.1 = q
    · by_cases h3 : e.1 = p
      · have h2 : p = q := h3.symm.trans h1
        simp [appendA, if_pos h1, lookupA, if_pos h3, if_pos h2]
      · have : ¬ p = e.1 := fun hh => h3 hh.symm
        simp [appendA, if_pos h1, lookupA, if_neg h3, lookupA_appendA p q c l]
    · by_cases h3 : e.1 = p
      · have h2 : ¬ p = q := fun hpq => h1 (h3.trans hpq)
        simp [appendA, if_neg h1, lookupA, if_pos h3, if_neg h2]
      · simp [appendA, if_neg h1, lookupA, if_neg h3, lookupA_appendA p q c l]

theorem eraseA_of_not_mem (p : FPath) : ∀ l : FSys, (∀ e ∈ l, e.1 ≠ p) → eraseA p l = l
  | [], _ => rfl
  | e :: l, h => by
    have h1 : e.1 ≠ p := h e (List.mem_cons_self e l)
    have h2 : ∀ e' ∈ l, e'.1 ≠ p := fun e' he' => h e' (List.mem_cons_of_mem e he')
    simp [eraseA, if_neg h1, eraseA_of_not_mem p l h2]

theorem appendA_of_not_mem (p : FPath) (c : Chunk) : ∀ l : FSys,
    (∀ e ∈ l, e.1 ≠ p) → appendA p c l = l
  | [], _ => rfl
  | e :: l, h => by
    have h1 : e.1 ≠ p := h e (List.mem_cons_self e l)
    have h2 : ∀ e' ∈ l, e'.1 ≠ p := fun e' he' => h e' (List.mem_cons_of_mem e he')
    simp [appendA, if_neg h1, appendA_of_not_mem p c l h2]

theorem lookupA_of_not_mem (p : FPath) : ∀ l : FSys,
    (∀ e ∈ l, e.1 ≠ p) → lookupA p l = none
  | [], _ => rfl
  | e :: l, h => by
    have h1 : e.1 ≠ p := h e (List.mem_cons_self e l)
    have h2 : ∀ e' ∈ l, e'.1 ≠ p := fun e' he' => h e' (List.mem_cons_of_mem e he')
    simp [lookupA, if_neg h1, lookupA_of_not_mem p l h2]

/-- C10: for every segment opened by the streaming loop, the staging path is
the final path with its `.h264` suffix replaced by `.tmp` (that is,
`raw_<timestamp>.tmp`, not `raw_<timestamp>.h264.tmp`), and a staging path
never matches the final `raw_*.h264` naming pattern. -/
theorem staging_path_replaces_final_suffix (ts : FPath) :
    stagingNameOf ts = "raw_".data ++ ts ++ ".tmp".data ∧
    matchesFinal (stagingNameOf ts) = false :=
  ⟨stagingNameOf_eq ts, matchesFinal_stagingNameOf ts⟩

/-! ## Trace composition lemmas -/

theorem countSpawn_append : ∀ a b : List Ev, countSpawn (a ++ b) = countSpawn a + countSpawn b
  | [], b => by simp [countSpawn]
  | e :: a, b => by cases e <;> simp [countSpawn, countSpawn_append a b] <;> omega

theorem countIterStart_append : ∀ a b : List Ev,
    countIterStart (a ++ b) = countIterStart a + countIterStart b
  | [], b => by simp [countIterStart]
  | e :: a, b => by cases e <;> simp [countIterStart, countIterStart_append a b] <;> omega

theorem segDones_append : ∀ a b : List Ev, segDones (a ++ b) = segDones a ++ segDones b
  | [], b => by simp [segDones]
  | e :: a, b => by cases e <;> simp [segDones, segDones_append a b]

theorem writeToSegment_tr (s : RSt) (tr : List Ev) (w : Bool) (c : Chunk) :
    (writeToSegment s tr w c).tr = tr := by
  unfold writeToSegment
  split
  · rfl
  · split <;> rfl

theorem isRelayEv_renameIfStaged (s : RSt) (b : Bool) (pr : RSt × List Ev)
    (h : renameIfStaged s b = some pr) : ∀ e ∈ pr.2, isRelayEv e = true := by
  intro e he
  unfold renameIfStaged at h
  split at h
  · cases h; simp at he
  · split at h
    · split at h
      · exact absurd h (by simp)
      · cases h; simp at he; subst he; rfl
    · cases h; simp at he

theorem isRelayEv_chunkIteration (cfg : Config) (tsStr : Nat → FPath) (s : RSt) (i : ChunkIn) :
    ∀ e ∈ (chunkIteration cfg tsStr s i).tr, isRelayEv e = true := by
  intro e he
  unfold chunkIteration at he
  rcases hd : i.data with _ | c
  · simp only [hd, StepRes.tr] at he
    exact absurd he (List.not_mem_nil e)
  · simp only [hd] at he
    by_cases hh : i.hlsFail = true
    · simp only [if_pos hh, StepRes.tr] at he
      simp at he; subst he; rfl
    · simp only [if_neg hh] at he
      by_cases hr : i.recFlag = true
      · simp only [if_pos hr] at he
        by_cases hrot : rotateDue cfg s.segStart i.now = true
        · simp only [if_pos hrot] at he
          rcases hcl : (match s.handle with
                        | none => some (s, ([] : List Ev))
                        | some _ => renameIfStaged s i.renameFail) with _ | ⟨s1, tr1⟩
          · simp only [hcl, StepRes.tr] at he
            simp at he; subst he; rfl
          · simp only [hcl] at he
            rw [writeToSegment_tr] at he
            rcases List.mem_cons.mp he with rfl | he1
            · rfl
            · rcases hhd : s.handle with _ | h
              · rw [hhd] at hcl
                simp at hcl
                obtain ⟨h1, h2⟩ := hcl
                subst h2
                simp at he1
              · rw [hhd] at hcl
                simp at hcl
                exact isRelayEv_renameIfStaged s i.renameFail (s1, tr1) hcl e he1
        · simp only [if_neg hrot] at he
          rw [writeToSegment_tr] at he
          simp at he; subst he; rfl
      · simp only [if_neg hr] at he
        rcases hhd : s.handle with _ | h
        · simp only [hhd, StepRes.tr] at he
          simp at he; subst he; rfl
        · simp only [hhd] at he
          rcases hrn : renameIfStaged { s with handle := none } i.renameFail with _ | ⟨s2, tr2⟩
          · simp only [hrn, StepRes.tr] at he
            simp at he; subst he; rfl
          · simp only [hrn, StepRes.tr] at he
            rcases List.mem_cons.mp he with rfl | he1
            · rfl
            · exact isRelayEv_renameIfStaged _ _ _ hrn e he1

theorem isRelayEv_relayLoop (cfg : Config) (tsStr : Nat → FPath) :
    ∀ (l : List ChunkIn) (s : RSt), ∀ e ∈ (relayLoop cfg tsStr s l).tr, isRelayEv e = true
  | [], s => by intro e he; simp [relayLoop, InnerRes.tr] at he
  | i :: rest, s => by
    intro e he
    unfold relayLoop at he
    rcases hc : chunkIteration cfg tsStr s i with s1 | s1 | s1
    case cont tr =>
      simp only [hc] at he
      rcases hrl : relayLoop cfg tsStr s1 rest with s2 | s2
      case finished tr2 =>
        simp only [hrl, InnerRes.tr] at he
        rcases List.mem_append.mp he with h1 | h2
        · have := isRelayEv_chunkIteration cfg tsStr s i e
          rw [hc] at this
          exact this h1
        · have := isRelayEv_relayLoop cfg tsStr rest s1 e
          rw [hrl] at this
          exact this h2
      case raised tr2 ek =>
        simp only [hrl, InnerRes.tr] at he
        rcases List.mem_append.mp he with h1 | h2
        · have := isRelayEv_chunkIteration cfg tsStr s i e
          rw [hc] at this
          exact this h1
        · have := isRelayEv_relayLoop cfg tsStr rest s1 e
          rw [hrl] at this
          exact this h2
    case brk tr =>
      simp only [hc, InnerRes.tr] at he
      have := isRelayEv_chunkIteration cfg tsStr s i e
      rw [hc] at this
      exact this he
    case exc tr ek =>
      simp only [hc, InnerRes.tr] at he
      have := isRelayEv_chunkIteration cfg tsStr s i e
      rw [hc] at this
      exact this he

theorem countSpawn_of_relayEv : ∀ tr : List Ev,
    (∀ e ∈ tr, isRelayEv e = true) → countSpawn tr = 0
  | [], _ => rfl
  | e :: tr, h => by
    have h1 := h e (List.mem_cons_self e tr)
    have h2 : ∀ e' ∈ tr, isRelayEv e' = true := fun e' he' => h e' (List.mem_cons_of_mem e he')
    cases e <;> simp [countSpawn, countSpawn_of_relayEv tr h2] <;> exact absurd h1 (by simp [isRelayEv])

theorem countIterStart_of_relayEv : ∀ tr : List Ev,
    (∀ e ∈ tr, isRelayEv e = true) → countIterStart tr = 0
  | [], _ => rfl
  | e :: tr, h => by
    have h1 := h e (List.mem_cons_self e tr)
    have h2 : ∀ e' ∈ tr, isRelayEv e' = true := fun e' he' => h e' (List.mem_cons_of_mem e he')
    cases e <;> simp [countIterStart, countIterStart_of_relayEv tr h2] <;>
      exact absurd h1 (by simp [isRelayEv])

theorem countIterStart_outerIteration (cfg : Config) (tsStr : Nat → FPath) (st : RSt)
    (oin : OuterIn) : countIterStart (outerIteration cfg tsStr st oin).2 = 1 := by
  unfold outerIteration
  by_cases hs : oin.spawnFail = true
  · rw [if_pos hs]
    by_cases hc : oin.cleanFail = true <;>
      simp [if_pos hs, hc, countIterStart, countIterStart_append]
  · rw [if_neg hs]
    rcases hrl : relayLoop cfg tsStr { st with segStart := none, segPath := none } oin.chunks
      with ⟨s1, tr⟩ | ⟨s1, tr, ek⟩
    ·
      have hz : countIterStart tr = 0 := by
        apply countIterStart_of_relayEv
        intro e he
        have := isRelayEv_relayLoop cfg tsStr oin.chunks { st with segStart := none, segPath := none } e
        rw [hrl] at this
        exact this he
      by_cases hcr : oin.camRet ≠ 0 ∧ oin.aliveAfter = true <;>
        by_cases hc : oin.cleanFail = true <;>
          simp [hcr, hc, countIterStart, countIterStart_append, hz]
    ·
      have hz : countIterStart tr = 0 := by
        apply countIterStart_of_relayEv
        intro e he
        have := isRelayEv_relayLoop cfg tsStr oin.chunks { st with segStart := none, segPath := none } e
        rw [hrl] at this
        exact this he
      by_cases hc : oin.cleanFail = true <;>
        simp [hc, countIterStart, countIterStart_append, hz]

theorem countSpawn_outerIteration (cfg : Config) (tsStr : Nat → FPath) (st : RSt)
    (oin : OuterIn) (h : oin.spawnFail = false) :
    countSpawn (outerIteration cfg tsStr st oin).2 = 1 := by
  unfold outerIteration
  rw [h]
  rcases hrl : relayLoop cfg tsStr { st with segStart := none, segPath := none } oin.chunks
    with ⟨s1, tr⟩ | ⟨s1, tr, ek⟩
  ·
    have hz : countSpawn tr = 0 := by
      apply countSpawn_of_relayEv
      intro e he
      have := isRelayEv_relayLoop cfg tsStr oin.chunks { st with segStart := none, segPath := none } e
      rw [hrl] at this
      exact this he
    by_cases hcr : oin.camRet ≠ 0 ∧ oin.aliveAfter = true <;>
      by_cases hc : oin.cleanFail = true <;>
        simp [hcr, hc, countSpawn, countSpawn_append, hz]
  ·
    have hz : countSpawn tr = 0 := by
      apply countSpawn_of_relayEv
      intro e he
      have := isRelayEv_relayLoop cfg tsStr oin.chunks { st with segStart := none, segPath := none } e
      rw [hrl] at this
      exact this he
    by_cases hc : oin.cleanFail = true <;>
      simp [hc, countSpawn, countSpawn_append, hz]

/-! ## Claim C9: the `set_is_recording` toggle -/

/-- C9: `set_is_recording` is a total synchronous state update that never
raises: for every boolean argument it returns a state with the flag set to the
argument, and when the argument equals the current `is_recording` value it
returns the state unchanged (no field changes, nothing logged). -/
theorem set_is_recording_spec :
    ∀ (j : JobCtl) (v : Bool),
      (set_is_recording j v).is_recording = v ∧
      (v = j.is_recording → set_is_recording j v = j) ∧
      (v ≠ j.is_recording →
        set_is_recording j v = { is_recording := v, toggleLog := j.toggleLog ++ [v] }) := by
  intro j v
  refine ⟨?_, ?_, ?_⟩
  · unfold set_is_recording
    split
    · next h => exact h.symm
    · rfl
  · intro h
    simp [set_is_recording, if_pos h]
  · intro h
    simp [set_is_recording, if_neg h]

/-- C9 witness: concrete no-op toggle and concrete effective toggle. -/
theorem set_is_recording_spec_wit :
    set_is_recording ⟨false, []⟩ false = ⟨false, []⟩ ∧
    (set_is_recording ⟨false, []⟩ true).is_recording = true := by
  have h1 := set_is_recording_spec ⟨false, []⟩ false
  have h2 := set_is_recording_spec ⟨false, []⟩ true
  exact ⟨h1.2.1 rfl, h2.1⟩

/-! ## Claim C8: stopping the pipeline -/

/-- C8: for each running process, stopping first requests graceful
termination (`term` is the first event), waits with a 10 second bound,
escalates to `kill` exactly when that wait expires, and in every case the last
event for the process is a completed wait for the exit status; the processes
are always cleared, and stopping with no pipeline running is a no-op that only
logs. -/
theorem stop_pipeline_graceful_then_forced :
    (∀ cam g, (stopProc cam g).head? = some (StopEv.term cam) ∧
       StopEv.waitB cam 10 (!g) ∈ stopProc cam g ∧
       ((StopEv.kill cam ∈ stopProc cam g) ↔ g = false) ∧
       (stopProc cam g).getLast? =
         some (if g then StopEv.waitB cam 10 false else StopEv.waitU cam)) ∧
    (∀ (r : RecorderSt) (inp : StopIn),
       (stop_camera_streaming r inp).1.camera = false ∧
       (stop_camera_streaming r inp).1.ffmpeg = false ∧
       (stop_camera_streaming r inp).1.loopSt.handle = none) ∧
    (∀ (r : RecorderSt) (inp : StopIn), r.camera = true →
       List.IsInfix (stopProc true inp.camGraceful) (stop_camera_streaming r inp).2) ∧
    (∀ (r : RecorderSt) (inp : StopIn), r.ffmpeg = true →
       List.IsInfix (stopProc false inp.ffGraceful) (stop_camera_streaming r inp).2) ∧
    (∀ (r : RecorderSt) (inp : StopIn), r.camera = false → r.ffmpeg = false →
       r.loopSt.handle = none →
       (stop_camera_streaming r inp).1 = r ∧
       (stop_camera_streaming r inp).2 = [StopEv.stopLog]) := by
  refine ⟨?_, ?_, ?_, ?_, ?_⟩
  · intro cam g
    cases g <;> simp [stopProc]
  · intro r inp
    exact ⟨rfl, rfl, rfl⟩
  · intro r inp h
    unfold stop_camera_streaming
    rw [h]
    exact ⟨[StopEv.stopLog],
      (if r.ffmpeg then stopProc false inp.ffGraceful else []) ++
        (if r.loopSt.handle.isSome then [StopEv.closeFile] else []), by simp⟩
  · intro r inp h
    unfold stop_camera_streaming
    rw [h]
    exact ⟨StopEv.stopLog :: (if r.camera then stopProc true inp.camGraceful else []),
      (if r.loopSt.handle.isSome then [StopEv.closeFile] else []), by simp⟩
  · intro r inp h1 h2 h3
    rcases r with ⟨⟨handle, segStart, segPath, fs⟩, cam, ff⟩
    simp only at h1 h2 h3
    subst h1; subst h2; subst h3
    exact ⟨rfl, rfl⟩

/-- C8 witness: stopping a running pipeline (camera timing out, transcoder
exiting gracefully) clears both processes and contains the camera's
terminate/wait/kill/wait sequence; stopping with nothing running is a no-op. -/
theorem stop_pipeline_graceful_then_forced_wit :
    (stop_camera_streaming ⟨initRSt, true, true⟩ ⟨false, true⟩).1.camera = false ∧
    List.IsInfix (stopProc true false)
      (stop_camera_streaming ⟨initRSt, true, true⟩ ⟨false, true⟩).2 ∧
    (stop_camera_streaming ⟨initRSt, false, false⟩ ⟨true, true⟩).1 = ⟨initRSt, false, false⟩ := by
  have h := stop_pipeline_graceful_then_forced
  exact ⟨(h.2.1 ⟨initRSt, true, true⟩ ⟨false, true⟩).1,
    h.2.2.1 ⟨initRSt, true, true⟩ ⟨false, true⟩ rfl,
    (h.2.2.2.2 ⟨initRSt, false, false⟩ ⟨true, true⟩ rfl rfl rfl).1⟩

/-! ## Claim C4: shutdown and staging files -/

/-- C4 counterexample: run one pipeline iteration with recording enabled and
one chunk, then disconnect cleanly.  The open segment's staging file
`raw_t.tmp` is still present after shutdown, still carries the `.tmp` suffix,
and no final `raw_t.h264` exists: the shutdown path did not perform the staged
close-and-rename, so a residual `.tmp` staging file remains after a clean
shutdown, contradicting the claim. -/
theorem shutdown_leaves_staging_cex :
    (on_disconnected
        { loopSt := (cameraStreamingLoop cfgD tsDemo initRSt [(true, oinOf [ciok 1 0 true])]).1,
          camera := true, ffmpeg := true }
        ⟨true, true⟩).1.loopSt.fs = [(stagingNameOf (tsDemo 0), [1])] ∧
    hasSuf ".tmp".data (stagingNameOf (tsDemo 0)) = true ∧
    lookupA (finalNameOf (tsDemo 0))
      (on_disconnected
        { loopSt := (cameraStreamingLoop cfgD tsDemo initRSt [(true, oinOf [ciok 1 0 true])]).1,
          camera := true, ffmpeg := true }
        ⟨true, true⟩).1.loopSt.fs = none := by
  refine ⟨?_, ?_, ?_⟩ <;> decide

/-- C4 (corrected): the clean-shutdown path closes the open file handle and
stops the processes but performs no staging rename: the archive filesystem is
left unchanged, so the staging `.tmp` file of a segment that was open at
disconnect remains (it is not promoted and not removed). -/
theorem shutdown_closes_without_rename (r : RecorderSt) (inp : StopIn) :
    (stop_camera_streaming r inp).1.loopSt.fs = r.loopSt.fs ∧
    (stop_camera_streaming r inp).1.loopSt.handle = none ∧
    on_disconnected r inp = stop_camera_streaming r inp :=
  ⟨rfl, rfl, rfl⟩

/-! ## Loop-level counting lemmas -/

theorem chunkIteration_hlsFail (cfg : Config) (tsStr : Nat → FPath) (s : RSt) (i : ChunkIn)
    (c : Chunk) (h1 : i.data = some c) (h2 : i.hlsFail = true) :
    chunkIteration cfg tsStr s i = .brk s [Ev.hlsWarn] := by
  unfold chunkIteration
  simp only [h1, if_pos h2]

theorem relayLoop_hlsFail (cfg : Config) (tsStr : Nat → FPath) (s : RSt) (i : ChunkIn)
    (rest : List ChunkIn) (c : Chunk) (h1 : i.data = some c) (h2 : i.hlsFail = true) :
    relayLoop cfg tsStr s (i :: rest) = .finished s [Ev.hlsWarn] := by
  unfold relayLoop
  simp only [chunkIteration_hlsFail cfg tsStr s i c h1 h2]

theorem countIterStart_cameraStreamingLoop (cfg : Config) (tsStr : Nat → FPath) :
    ∀ (ins : List (Bool × OuterIn)) (st : RSt), (∀ x ∈ ins, x.1 = true) →
      countIterStart (cameraStreamingLoop cfg tsStr st ins).2 = ins.length
  | [], st, _ => rfl
  | (alive, oin) :: rest, st, h => by
    have h1 : alive = true := h (alive, oin) (List.mem_cons_self _ _)
    have h2 : ∀ x ∈ rest, x.1 = true := fun x hx => h x (List.mem_cons_of_mem _ hx)
    unfold cameraStreamingLoop
    rw [if_pos h1, countIterStart_append, countIterStart_outerIteration,
      countIterStart_cameraStreamingLoop cfg tsStr rest _ h2]
    simp [Nat.add_comm]

theorem countSpawn_cameraStreamingLoop (cfg : Config) (tsStr : Nat → FPath) :
    ∀ (ins : List (Bool × OuterIn)) (st : RSt),
      (∀ x ∈ ins, x.1 = true ∧ x.2.spawnFail = false) →
      countSpawn (cameraStreamingLoop cfg tsStr st ins).2 = ins.length
  | [], st, _ => rfl
  | (alive, oin) :: rest, st, h => by
    have h1 := h (alive, oin) (List.mem_cons_self _ _)
    have h2 : ∀ x ∈ rest, x.1 = true ∧ x.2.spawnFail = false :=
      fun x hx => h x (List.mem_cons_of_mem _ hx)
    unfold cameraStreamingLoop
    rw [if_pos h1.1, countSpawn_append, countSpawn_outerIteration cfg tsStr st oin h1.2,
      countSpawn_cameraStreamingLoop cfg tsStr rest _ h2]
    simp [Nat.add_comm]

/-! ## Claim C6: the recovery loop never exits while alive -/

/-- C6: while the job observes a non-disconnected state the outer loop runs
one iteration per observation and never terminates early; an exception raised
inside a pipeline iteration (spawn, relay, archive) is caught at the loop
boundary, logged, and followed by the 5 second cooldown, as is a non-zero
capture exit status while the job is alive. -/
theorem recovery_loop_never_exits (cfg : Config) (tsStr : Nat → FPath) :
    (∀ (st : RSt) (ins : List (Bool × OuterIn)), (∀ x ∈ ins, x.1 = true) →
       countIterStart (cameraStreamingLoop cfg tsStr st ins).2 = ins.length) ∧
    (∀ (st : RSt) (oin : OuterIn) (s : RSt) (tr : List Ev) (e : ExcKind),
       oin.spawnFail = false →
       relayLoop cfg tsStr { st with segStart := none, segPath := none } oin.chunks =
         .raised s tr e →
       (outerIteration cfg tsStr st oin).1 = s ∧
       Ev.loopError ∈ (outerIteration cfg tsStr st oin).2 ∧
       Ev.sleep 5 ∈ (outerIteration cfg tsStr st oin).2) ∧
    (∀ (st : RSt) (oin : OuterIn) (s : RSt) (tr : List Ev),
       oin.spawnFail = false → oin.camRet ≠ 0 → oin.aliveAfter = true →
       relayLoop cfg tsStr { st with segStart := none, segPath := none } oin.chunks =
         .finished s tr →
       Ev.camFailError ∈ (outerIteration cfg tsStr st oin).2 ∧
       Ev.sleep 5 ∈ (outerIteration cfg tsStr st oin).2) ∧
    (∀ (st : RSt) (oin : OuterIn), oin.spawnFail = true →
       (outerIteration cfg tsStr st oin).1 = st ∧
       Ev.loopError ∈ (outerIteration cfg tsStr st oin).2 ∧
       Ev.sleep 5 ∈ (outerIteration cfg tsStr st oin).2) := by
  refine ⟨fun st ins h => countIterStart_cameraStreamingLoop cfg tsStr ins st h, ?_, ?_, ?_⟩
  · intro st oin s tr e hs hrl
    unfold outerIteration
    rw [if_neg (by simp [hs])]
    simp only [hrl]
    by_cases hc : oin.cleanFail = true <;> simp [hc]
  · intro st oin s tr hs h2 h3 hrl
    unfold outerIteration
    rw [if_neg (by simp [hs])]
    simp only [hrl]
    rw [if_pos (show ¬oin.camRet = 0 ∧ oin.aliveAfter = true from ⟨h2, h3⟩)]
    by_cases hc : oin.cleanFail = true <;> simp [hc]
  · intro st oin hs
    unfold outerIteration
    rw [if_pos hs]
    by_cases hc : oin.cleanFail = true <;> simp [hc]

/-- C6 witness: a concrete two-iteration alive run executes both iterations,
and a concrete iteration whose spawn raises is logged with a cooldown. -/
theorem recovery_loop_never_exits_wit :
    countIterStart (cameraStreamingLoop cfgD tsDemo initRSt
      [(true, oinOf []), (true, oinOf [])]).2 = 2 ∧
    Ev.loopError ∈ (outerIteration cfgD tsDemo initRSt
      { cleanFail := false, spawnFail := true, chunks := [], camRet := 0,
        aliveAfter := true }).2 ∧
    Ev.sleep 5 ∈ (outerIteration cfgD tsDemo initRSt
      { cleanFail := false, spawnFail := true, chunks := [], camRet := 0,
        aliveAfter := true }).2 := by
  have h := recovery_loop_never_exits cfgD tsDemo
  refine ⟨h.1 initRSt _ (by decide), (h.2.2.2 initRSt _ rfl).2.1, (h.2.2.2 initRSt _ rfl).2.2⟩

/-! ## Claim C7: broken transcode pipe ends only the current iteration -/

/-- C7: if the write of a chunk to the transcode stdin raises, the chunk step
logs a warning and breaks with the recorder state unchanged, the relay run
finishes normally (no exception escapes, the recorder does not crash), and the
outer loop spawns a fresh capture/transcode pipeline on every following alive
iteration (one spawn per iteration). -/
theorem hls_pipe_failure_ends_iteration (cfg : Config) (tsStr : Nat → FPath) :
    (∀ (s : RSt) (i : ChunkIn) (c : Chunk), i.data = some c → i.hlsFail = true →
       chunkIteration cfg tsStr s i = .brk s [Ev.hlsWarn]) ∧
    (∀ (s : RSt) (i : ChunkIn) (rest : List ChunkIn) (c : Chunk),
       i.data = some c → i.hlsFail = true →
       relayLoop cfg tsStr s (i :: rest) = .finished s [Ev.hlsWarn]) ∧
    (∀ (st : RSt) (ins : List (Bool × OuterIn)),
       (∀ x ∈ ins, x.1 = true ∧ x.2.spawnFail = false) →
       countSpawn (cameraStreamingLoop cfg tsStr st ins).2 = ins.length) :=
  ⟨fun s i c h1 h2 => chunkIteration_hlsFail cfg tsStr s i c h1 h2,
   fun s i rest c h1 h2 => relayLoop_hlsFail cfg tsStr s i rest c h1 h2,
   fun st ins h => countSpawn_cameraStreamingLoop cfg tsStr ins st h⟩

/-- C7 witness: a concrete broken-pipe iteration breaks with the warning, and
a concrete two-iteration run (the first ended by the broken pipe) spawns the
pipeline twice. -/
theorem hls_pipe_failure_ends_iteration_wit :
    relayLoop cfgD tsDemo initRSt [ciHlsFail 3 0] = .finished initRSt [Ev.hlsWarn] ∧
    countSpawn (cameraStreamingLoop cfgD tsDemo initRSt
      [(true, oinOf [ciHlsFail 3 0]), (true, oinOf [ciok 4 1 false])]).2 = 2 := by
  have h := hls_pipe_failure_ends_iteration cfgD tsDemo
  refine ⟨h.2.1 initRSt (ciHlsFail 3 0) [] 3 rfl rfl, h.2.2 initRSt _ (by decide)⟩

/-! ## Filesystem lookup lemmas for the loop operations -/

theorem lookupA_createA (p q : FPath) (fs : FSys) :
    lookupA p (createA q fs) = if p = q then some [] else lookupA p fs := by
  unfold createA
  by_cases h : p = q
  · simp [lookupA, h]
  · have h' : ¬ q = p := fun hh => h hh.symm
    simp [lookupA, if_neg h', lookupA_eraseA, if_neg h]

theorem lookupA_renameA (p src dst : FPath) (fs : FSys) :
    lookupA p (renameA src dst fs) =
      match lookupA src fs with
      | none => lookupA p fs
      | some v => if p = dst then some v else if p = src then none else lookupA p fs := by
  unfold renameA
  cases h : lookupA src fs with
  | none => rfl
  | some v =>
    by_cases h1 : p = dst
    · simp [lookupA, h1]
    · have h1' : ¬ dst = p := fun hh => h1 hh.symm
      simp only [lookupA, if_neg h1', lookupA_eraseA, if_neg h1]

theorem lookupA_isSome_appendA (p q : FPath) (c : Chunk) (fs : FSys) :
    (lookupA p (appendA q c fs)).isSome = (lookupA p fs).isSome := by
  rw [lookupA_appendA]
  by_cases h : p = q <;> simp [h]

theorem writeToSegment_isSome (s : RSt) (tr : List Ev) (w : Bool) (c : Chunk) (p : FPath) :
    (lookupA p (writeToSegment s tr w c).st.fs).isSome = (lookupA p s.fs).isSome := by
  unfold writeToSegment
  cases s.handle with
  | none => rfl
  | some h =>
    cases w
    · simp [StepRes.st, lookupA_isSome_appendA]
    · simp [StepRes.st]

theorem renameIfStaged_finals (s : RSt) (b : Bool) (s1 : RSt) (tr1 : List Ev)
    (hpr : renameIfStaged s b = some (s1, tr1)) (p : FPath)
    (h : (lookupA p s1.fs).isSome = true) :
    (lookupA p s.fs).isSome = true ∨ Ev.segDone p ∈ tr1 := by
  unfold renameIfStaged at hpr
  rcases hsp : s.segPath with _ | q
  · rw [hsp] at hpr
    simp only [Option.some.injEq, Prod.mk.injEq] at hpr
    obtain ⟨h1, h2⟩ := hpr
    subst h1
    exact Or.inl h
  · rw [hsp] at hpr
    simp only at hpr
    by_cases hex : existsA (pyWithSuffix q ".tmp".data) s.fs = true
    · rw [if_pos hex] at hpr
      cases b
      · simp only [Bool.false_eq_true, if_false, Option.some.injEq, Prod.mk.injEq] at hpr
        obtain ⟨h1, h2⟩ := hpr
        subst h2
        rw [← h1] at h
        simp only at h
        rw [lookupA_renameA] at h
        rcases hl : lookupA (pyWithSuffix q ".tmp".data) s.fs with _ | v
        · rw [hl] at h
          exact Or.inl h
        · rw [hl] at h
          simp only at h
          by_cases hpq : p = q
          · right
            rw [hpq]
            simp
          · rw [if_neg hpq] at h
            by_cases hps : p = pyWithSuffix q ".tmp".data
            · rw [if_pos hps] at h
              simp at h
            · rw [if_neg hps] at h
              exact Or.inl h
      · simp at hpr
    · rw [if_neg hex] at hpr
      simp only [Option.some.injEq, Prod.mk.injEq] at hpr
      obtain ⟨h1, h2⟩ := hpr
      subst h1
      exact Or.inl h

theorem chunkIteration_finals (cfg : Config) (tsStr : Nat → FPath) (s : RSt) (i : ChunkIn)
    (p : FPath) (hm : matchesFinal p = true)
    (h : (lookupA p (chunkIteration cfg tsStr s i).st.fs).isSome = true) :
    (lookupA p s.fs).isSome = true ∨ Ev.segDone p ∈ (chunkIteration cfg tsStr s i).tr := by
  unfold chunkIteration at h ⊢
  rcases hd : i.data with _ | c
  · simp only [hd, StepRes.st] at h
    exact Or.inl h
  · simp only [hd] at h ⊢
    by_cases hh : i.hlsFail = true
    · simp only [if_pos hh, StepRes.st] at h
      exact Or.inl h
    · simp only [if_neg hh] at h ⊢
      by_cases hr : i.recFlag = true
      · simp only [if_pos hr] at h ⊢
        by_cases hrot : rotateDue cfg s.segStart i.now = true
        · simp only [if_pos hrot] at h ⊢
          rcases hcl : (match s.handle with
                        | none => some (s, ([] : List Ev))
                        | some _ => renameIfStaged s i.renameFail) with _ | ⟨s1, tr1⟩
          · simp only [hcl, StepRes.st] at h
            simp only [hcl, StepRes.tr]
            exact Or.inl h
          · simp only [hcl] at h ⊢
            rw [writeToSegment_isSome] at h
            simp only at h
            rw [lookupA_createA] at h
            have hptmp : ¬ p = pyWithSuffix (finalNameOf (tsStr i.now)) ".tmp".data := by
              intro hp
              rw [hp] at hm
              rw [matchesFinal_pyWithSuffix_tmp] at hm
              exact absurd hm (by simp)
            rw [if_neg hptmp] at h
            have hstep : (lookupA p s.fs).isSome = true ∨ Ev.segDone p ∈ tr1 := by
              rcases hhd : s.handle with _ | hdl
              · rw [hhd] at hcl
                simp at hcl
                rw [← hcl.1] at h
                exact Or.inl h
              · rw [hhd] at hcl
                simp only at hcl
                exact renameIfStaged_finals s i.renameFail s1 tr1 hcl p h
            rcases hstep with h1 | h1
            · exact Or.inl h1
            · right
              rw [writeToSegment_tr]
              exact List.mem_cons_of_mem _ h1
        · simp only [if_neg hrot] at h ⊢
          rw [writeToSegment_isSome] at h
          exact Or.inl h
      · simp only [if_neg hr] at h ⊢
        rcases hhd : s.handle with _ | hdl
        · simp only [hhd, StepRes.st] at h
          exact Or.inl h
        · simp only [hhd] at h ⊢
          rcases hrn : renameIfStaged { s with handle := none } i.renameFail with _ | ⟨s2, tr2⟩
          · simp only [hrn, StepRes.st] at h
            exact Or.inl h
          · simp only [hrn, StepRes.st, StepRes.tr] at h ⊢
            have := renameIfStaged_finals { s with handle := none } i.renameFail s2 tr2 hrn p h
            rcases this with h1 | h1
            · exact Or.inl h1
            · exact Or.inr (List.mem_cons_of_mem _ h1)

theorem relayLoop_finals (cfg : Config) (tsStr : Nat → FPath) :
    ∀ (l : List ChunkIn) (s : RSt) (p : FPath), matchesFinal p = true →
      (lookupA p (relayLoop cfg tsStr s l).st.fs).isSome = true →
      (lookupA p s.fs).isSome = true ∨ Ev.segDone p ∈ (relayLoop cfg tsStr s l).tr
  | [], s, p => by
    intro hm h
    simp only [relayLoop, InnerRes.st] at h
    exact Or.inl h
  | i :: rest, s, p => by
    intro hm h
    unfold relayLoop at h ⊢
    rcases hc : chunkIteration cfg tsStr s i with s1 | s1 | s1
    case cont tr =>
      simp only [hc] at h ⊢
      rcases hrl : relayLoop cfg tsStr s1 rest with ⟨s2, tr2⟩ | ⟨s2, tr2, ek⟩
      · simp only [hrl, InnerRes.st, InnerRes.tr] at h ⊢
        have hrec := relayLoop_finals cfg tsStr rest s1 p hm
        rw [hrl] at hrec
        rcases hrec h with h1 | h1
        · have hstep := chunkIteration_finals cfg tsStr s i p hm
          rw [hc] at hstep
          rcases hstep h1 with h2 | h2
          · exact Or.inl h2
          · exact Or.inr (List.mem_append.mpr (Or.inl h2))
        · exact Or.inr (List.mem_append.mpr (Or.inr h1))
      · simp only [hrl, InnerRes.st, InnerRes.tr] at h ⊢
        have hrec := relayLoop_finals cfg tsStr rest s1 p hm
        rw [hrl] at hrec
        rcases hrec h with h1 | h1
        · have hstep := chunkIteration_finals cfg tsStr s i p hm
          rw [hc] at hstep
          rcases hstep h1 with h2 | h2
          · exact Or.inl h2
          · exact Or.inr (List.mem_append.mpr (Or.inl h2))
        · exact Or.inr (List.mem_append.mpr (Or.inr h1))
    case brk tr =>
      simp only [hc, InnerRes.st, InnerRes.tr] at h ⊢
      have hstep := chunkIteration_finals cfg tsStr s i p hm
      rw [hc] at hstep
      exact hstep h
    case exc tr ek =>
      simp only [hc, InnerRes.st, InnerRes.tr] at h ⊢
      have hstep := chunkIteration_finals cfg tsStr s i p hm
      rw [hc] at hstep
      exact hstep h

theorem outerIteration_finals (cfg : Config) (tsStr : Nat → FPath) (st : RSt) (oin : OuterIn)
    (p : FPath) (hm : matchesFinal p = true)
    (h : (lookupA p (outerIteration cfg tsStr st oin).1.fs).isSome = true) :
    (lookupA p st.fs).isSome = true ∨ Ev.segDone p ∈ (outerIteration cfg tsStr st oin).2 := by
  unfold outerIteration at h ⊢
  by_cases hs : oin.spawnFail = true
  · rw [if_pos hs] at h
    exact Or.inl h
  · rw [if_neg hs] at h ⊢
    rcases hrl : relayLoop cfg tsStr { st with segStart := none, segPath := none } oin.chunks
      with ⟨s1, tr⟩ | ⟨s1, tr, ek⟩
    · simp only [hrl] at h ⊢
      have hrec := relayLoop_finals cfg tsStr oin.chunks
        { st with segStart := none, segPath := none } p hm
      rw [hrl] at hrec
      simp only [InnerRes.st, InnerRes.tr] at hrec
      by_cases hcr : ¬oin.camRet = 0 ∧ oin.aliveAfter = true
      · rw [if_pos hcr] at h
        rcases hrec h with h1 | h1
        · exact Or.inl h1
        · right
          rw [if_pos hcr]
          by_cases hc : oin.cleanFail = true <;> simp [hc, h1]
      · rw [if_neg hcr] at h
        rcases hrec h with h1 | h1
        · exact Or.inl h1
        · right
          rw [if_neg hcr]
          by_cases hc : oin.cleanFail = true <;> simp [hc, h1]
    · simp only [hrl] at h ⊢
      have hrec := relayLoop_finals cfg tsStr oin.chunks
        { st with segStart := none, segPath := none } p hm
      rw [hrl] at hrec
      simp only [InnerRes.st, InnerRes.tr] at hrec
      rcases hrec h with h1 | h1
      · exact Or.inl h1
      · right
        by_cases hc : oin.cleanFail = true <;> simp [hc, h1]

theorem cameraStreamingLoop_finals (cfg : Config) (tsStr : Nat → FPath) :
    ∀ (ins : List (Bool × OuterIn)) (st : RSt) (p : FPath), matchesFinal p = true →
      (lookupA p (cameraStreamingLoop cfg tsStr st ins).1.fs).isSome = true →
      (lookupA p st.fs).isSome = true ∨
        Ev.segDone p ∈ (cameraStreamingLoop cfg tsStr st ins).2
  | [], st, p => by
    intro hm h
    exact Or.inl h
  | (alive, oin) :: rest, st, p => by
    intro hm h
    unfold cameraStreamingLoop at h ⊢
    by_cases ha : alive = true
    · rw [if_pos ha] at h ⊢
      simp only at h ⊢
      have hrec := cameraStreamingLoop_finals cfg tsStr rest (outerIteration cfg tsStr st oin).1
        p hm h
      rcases hrec with h1 | h1
      · have hout := outerIteration_finals cfg tsStr st oin p hm h1
        rcases hout with h2 | h2
        · exact Or.inl h2
        · exact Or.inr (List.mem_append.mpr (Or.inl h2))
      · exact Or.inr (List.mem_append.mpr (Or.inr h1))
    · rw [if_neg ha] at h ⊢
      exact Or.inl h

/-! ## Claim C2: final names only from completed close-and-rename -/

/-- C2: at every observation instant (any run of the recorder from a fresh
start, with arbitrary inputs and injected failures), every file in the archive
directory matching `raw_*.h264` was produced by a completed close-then-rename
of a staging file (a `segDone` promotion is in the trace for exactly that
path), and no staging path ever matches the final pattern. -/
theorem final_files_from_completed_rename (cfg : Config) (tsStr : Nat → FPath)
    (ins : List (Bool × OuterIn)) :
    (∀ p, matchesFinal p = true →
       (lookupA p (cameraStreamingLoop cfg tsStr initRSt ins).1.fs).isSome = true →
       Ev.segDone p ∈ (cameraStreamingLoop cfg tsStr initRSt ins).2) ∧
    (∀ ts : FPath, matchesFinal (stagingNameOf ts) = false) := by
  constructor
  · intro p hm h
    rcases cameraStreamingLoop_finals cfg tsStr ins initRSt p hm h with h1 | h1
    · simp [initRSt, lookupA] at h1
    · exact h1
  · exact matchesFinal_stagingNameOf

/-- C2 witness: a concrete run that promotes one segment; the final file
exists and the trace shows its completed rename. -/
theorem final_files_from_completed_rename_wit :
    Ev.segDone (finalNameOf (tsDemo 0)) ∈
      (cameraStreamingLoop cfgD tsDemo initRSt
        [(true, oinOf [ciok 1 0 true, ciok 2 1 false])]).2 := by
  have h := final_files_from_completed_rename cfgD tsDemo
    [(true, oinOf [ciok 1 0 true, ciok 2 1 false])]
  exact h.1 (finalNameOf (tsDemo 0)) (by decide) (by decide)

/-! ## Claim C5 machinery: staged content is never empty when promoted -/

theorem renameIfStaged_c5 (s : RSt) (b : Bool) (s1 : RSt) (tr1 : List Ev)
    (hpr : renameIfStaged s b = some (s1, tr1))
    (hcontent : ∀ p, s.segPath = some p →
      ∃ cs, lookupA (pyWithSuffix p ".tmp".data) s.fs = some cs ∧ cs ≠ [])
    (hne : noEmptyFinal s.fs) :
    noEmptyFinal s1.fs ∧ s1.handle = s.handle ∧ s1.segPath = s.segPath ∧
      s1.segStart = s.segStart := by
  unfold renameIfStaged at hpr
  rcases hsp : s.segPath with _ | q
  · rw [hsp] at hpr
    simp only [Option.some.injEq, Prod.mk.injEq] at hpr
    obtain ⟨h1, h2⟩ := hpr
    subst h1
    exact ⟨hne, rfl, hsp, rfl⟩
  · rw [hsp] at hpr
    simp only at hpr
    by_cases hex : existsA (pyWithSuffix q ".tmp".data) s.fs = true
    · rw [if_pos hex] at hpr
      cases b
      · simp only [Bool.false_eq_true, if_false, Option.some.injEq, Prod.mk.injEq] at hpr
        obtain ⟨h1, h2⟩ := hpr
        rw [← h1]
        refine ⟨?_, rfl, rfl, rfl⟩
        intro p cs hl hm
        simp only at hl
        rw [lookupA_renameA] at hl
        obtain ⟨v, hv, hvne⟩ := hcontent q hsp
        rw [hv] at hl
        simp only at hl
        by_cases hpq : p = q
        · rw [if_pos hpq] at hl
          simp at hl
          subst hl
          exact hvne
        · rw [if_neg hpq] at hl
          by_cases hps : p = pyWithSuffix q ".tmp".data
          · rw [if_pos hps] at hl
            simp at hl
          · rw [if_neg hps] at hl
            exact hne p cs hl hm
      · simp at hpr
    · rw [if_neg hex] at hpr
      simp only [Option.some.injEq, Prod.mk.injEq] at hpr
      obtain ⟨h1, h2⟩ := hpr
      subst h1
      exact ⟨hne, rfl, hsp, rfl⟩


/-! ## Branch equations for the chunk iteration -/

theorem writeToSegment_eq_none (s : RSt) (tr : List Ev) (w : Bool) (c : Chunk)
    (h : s.handle = none) : writeToSegment s tr w c = .cont s tr := by
  unfold writeToSegment
  rw [h]

theorem writeToSegment_eq_fail (s : RSt) (tr : List Ev) (c : Chunk) (hd : FPath)
    (h : s.handle = some hd) : writeToSegment s tr true c = .exc s tr .writeErr := by
  unfold writeToSegment
  rw [h]
  rfl

theorem writeToSegment_eq_ok (s : RSt) (tr : List Ev) (c : Chunk) (hd : FPath)
    (h : s.handle = some hd) :
    writeToSegment s tr false c = .cont { s with fs := appendA hd c s.fs } tr := by
  unfold writeToSegment
  rw [h]
  rfl

theorem renameIfStaged_eq_noPath (s : RSt) (b : Bool) (h : s.segPath = none) :
    renameIfStaged s b = some (s, []) := by
  unfold renameIfStaged
  rw [h]

theorem renameIfStaged_eq_noTmp (s : RSt) (b : Bool) (q : FPath) (h : s.segPath = some q)
    (hex : existsA (pyWithSuffix q ".tmp".data) s.fs = false) :
    renameIfStaged s b = some (s, []) := by
  unfold renameIfStaged
  rw [h]
  simp only [hex]
  rfl

theorem renameIfStaged_eq_fail (s : RSt) (q : FPath) (h : s.segPath = some q)
    (hex : existsA (pyWithSuffix q ".tmp".data) s.fs = true) :
    renameIfStaged s true = none := by
  unfold renameIfStaged
  rw [h]
  simp only [hex]
  rfl

theorem renameIfStaged_eq_ok (s : RSt) (q : FPath) (h : s.segPath = some q)
    (hex : existsA (pyWithSuffix q ".tmp".data) s.fs = true) :
    renameIfStaged s false =
      some ({ s with fs := renameA (pyWithSuffix q ".tmp".data) q s.fs }, [Ev.segDone q]) := by
  unfold renameIfStaged
  rw [h]
  simp only [hex]
  rfl

theorem chunkIteration_eq_eof (cfg : Config) (tsStr : Nat → FPath) (s : RSt) (i : ChunkIn)
    (h : i.data = none) : chunkIteration cfg tsStr s i = .brk s [] := by
  unfold chunkIteration
  rw [h]

theorem chunkIteration_eq_rotate (cfg : Config) (tsStr : Nat → FPath) (s : RSt) (i : ChunkIn)
    (c : Chunk) (h1 : i.data = some c) (h2 : i.hlsFail = false) (h3 : i.recFlag = true)
    (h4 : rotateDue cfg s.segStart i.now = true) :
    chunkIteration cfg tsStr s i =
      match (match s.handle with
             | none => some (s, ([] : List Ev))
             | some _ => renameIfStaged s i.renameFail) with
      | none => .exc s [Ev.hls c] .renameErr
      | some (s1, tr1) =>
        writeToSegment
          { handle := some (pyWithSuffix (finalNameOf (tsStr i.now)) ".tmp".data),
            segStart := some i.now, segPath := some (finalNameOf (tsStr i.now)),
            fs := createA (pyWithSuffix (finalNameOf (tsStr i.now)) ".tmp".data) s1.fs }
          (Ev.hls c :: tr1) i.writeFail c := by
  unfold chunkIteration
  rw [h1, h2, h3, h4]
  rfl

theorem chunkIteration_eq_norotate (cfg : Config) (tsStr : Nat → FPath) (s : RSt) (i : ChunkIn)
    (c : Chunk) (h1 : i.data = some c) (h2 : i.hlsFail = false) (h3 : i.recFlag = true)
    (h4 : rotateDue cfg s.segStart i.now = false) :
    chunkIteration cfg tsStr s i = writeToSegment s [Ev.hls c] i.writeFail c := by
  unfold chunkIteration
  rw [h1, h2, h3, h4]
  rfl

theorem chunkIteration_eq_disabled_none (cfg : Config) (tsStr : Nat → FPath) (s : RSt)
    (i : ChunkIn) (c : Chunk) (h1 : i.data = some c) (h2 : i.hlsFail = false)
    (h3 : i.recFlag = false) (h4 : s.handle = none) :
    chunkIteration cfg tsStr s i = .cont s [Ev.hls c] := by
  unfold chunkIteration
  rw [h1, h2, h3, h4]
  rfl

theorem chunkIteration_eq_disabled_some (cfg : Config) (tsStr : Nat → FPath) (s : RSt)
    (i : ChunkIn) (c : Chunk) (hd : FPath) (h1 : i.data = some c) (h2 : i.hlsFail = false)
    (h3 : i.recFlag = false) (h4 : s.handle = some hd) :
    chunkIteration cfg tsStr s i =
      match renameIfStaged { s with handle := none } i.renameFail with
      | none => .exc { s with handle := none } [Ev.hls c] .renameErr
      | some (s2, tr2) =>
        .cont { s2 with segStart := none, segPath := none } (Ev.hls c :: tr2) := by
  unfold chunkIteration
  rw [h1, h2, h3, h4]
  rfl

theorem chunkIteration_c5 (cfg : Config) (tsStr : Nat → FPath) (s : RSt) (i : ChunkIn)
    (hseg : segCoherent s) (hne : noEmptyFinal s.fs) :
    noEmptyFinal (chunkIteration cfg tsStr s i).st.fs ∧
    (∀ s' tr, chunkIteration cfg tsStr s i = .cont s' tr → segCoherent s') := by
  rcases hd : i.data with _ | c
  · rw [chunkIteration_eq_eof cfg tsStr s i hd]
    exact ⟨hne, fun s' tr h => by cases h⟩
  · by_cases hh : i.hlsFail = true
    · rw [chunkIteration_hlsFail cfg tsStr s i c hd hh]
      exact ⟨hne, fun s' tr h => by cases h⟩
    · have hh' : i.hlsFail = false := by simpa using hh
      by_cases hr : i.recFlag = true
      · by_cases hrot : rotateDue cfg s.segStart i.now = true
        · rw [chunkIteration_eq_rotate cfg tsStr s i c hd hh' hr hrot]
          rcases hcl : (match s.handle with
               | none => some (s, ([] : List Ev))
               | some _ => renameIfStaged s i.renameFail) with _ | ⟨s1, tr1⟩
          · simp only [hcl]
            exact ⟨hne, fun s' tr h => by cases h⟩
          · have hs1 : noEmptyFinal s1.fs := by
              rcases hhd : s.handle with _ | hdl
              · rw [hhd] at hcl
                simp only [Option.some.injEq, Prod.mk.injEq] at hcl
                obtain ⟨e1, e2⟩ := hcl
                subst e1
                exact hne
              · rw [hhd] at hcl
                exact (renameIfStaged_c5 s i.renameFail s1 tr1 hcl
                  (fun p hp => (hseg p hp).2) hne).1
            simp only [hcl]
            have hcreate : noEmptyFinal
                (createA (pyWithSuffix (finalNameOf (tsStr i.now)) ".tmp".data) s1.fs) := by
              intro p cs hl hm
              rw [lookupA_createA] at hl
              by_cases hp : p = pyWithSuffix (finalNameOf (tsStr i.now)) ".tmp".data
              · rw [hp, matchesFinal_pyWithSuffix_tmp] at hm
                exact absurd hm (by simp)
              · rw [if_neg hp] at hl
                exact hs1 p cs hl hm
            by_cases hw : i.writeFail = true
            · rw [hw, writeToSegment_eq_fail _ _ _
                (pyWithSuffix (finalNameOf (tsStr i.now)) ".tmp".data) rfl]
              exact ⟨hcreate, fun s' tr h => by cases h⟩
            · have hw' : i.writeFail = false := by simpa using hw
              rw [hw', writeToSegment_eq_ok _ _ _
                (pyWithSuffix (finalNameOf (tsStr i.now)) ".tmp".data) rfl]
              constructor
              · intro p cs hl hm
                simp only [StepRes.st] at hl
                rw [lookupA_appendA] at hl
                by_cases hp : p = pyWithSuffix (finalNameOf (tsStr i.now)) ".tmp".data
                · rw [hp, matchesFinal_pyWithSuffix_tmp] at hm
                  exact absurd hm (by simp)
                · rw [if_neg hp] at hl
                  exact hcreate p cs hl hm
              · intro s' tr h
                simp only [StepRes.cont.injEq] at h
                obtain ⟨e1, e2⟩ := h
                rw [← e1]
                intro p hp
                simp only [Option.some.injEq] at hp
                subst hp
                refine ⟨rfl, [c], ?_, by simp⟩
                simp only
                rw [lookupA_appendA, if_pos rfl, lookupA_createA, if_pos rfl]
                rfl
        · have hrot' : rotateDue cfg s.segStart i.now = false := by simpa using hrot
          rw [chunkIteration_eq_norotate cfg tsStr s i c hd hh' hr hrot']
          rcases hhd : s.handle with _ | hdl
          · rw [writeToSegment_eq_none _ _ _ _ hhd]
            refine ⟨hne, ?_⟩
            intro s' tr h
            simp only [StepRes.cont.injEq] at h
            obtain ⟨e1, e2⟩ := h
            rw [← e1]
            exact hseg
          · by_cases hw : i.writeFail = true
            · rw [hw, writeToSegment_eq_fail _ _ _ hdl hhd]
              exact ⟨hne, fun s' tr h => by cases h⟩
            · have hw' : i.writeFail = false := by simpa using hw
              rw [hw', writeToSegment_eq_ok _ _ _ hdl hhd]
              constructor
              · intro p cs hl hm
                simp only [StepRes.st] at hl
                rw [lookupA_appendA] at hl
                by_cases hp : p = hdl
                · rw [if_pos hp] at hl
                  rcases ho : lookupA p s.fs with _ | v
                  · rw [ho] at hl
                    simp at hl
                  · rw [ho] at hl
                    simp at hl
                    rw [← hl]
                    simp
                · rw [if_neg hp] at hl
                  exact hne p cs hl hm
              · intro s' tr h
                simp only [StepRes.cont.injEq] at h
                obtain ⟨e1, e2⟩ := h
                rw [← e1]
                intro p hp
                obtain ⟨ha, cs, hcs, hcsne⟩ := hseg p hp
                have hpd : pyWithSuffix p ".tmp".data = hdl := by
                  rw [hhd] at ha
                  simp only [Option.some.injEq] at ha
                  exact ha.symm
                refine ⟨?_, cs ++ [c], ?_, by simp⟩
                · simp only
                  rw [hpd]
                  exact hhd
                · simp only
                  rw [lookupA_appendA, if_pos hpd, hcs]
                  rfl
      · have hr' : i.recFlag = false := by simpa using hr
        rcases hhd : s.handle with _ | hdl
        · rw [chunkIteration_eq_disabled_none cfg tsStr s i c hd hh' hr' hhd]
          refine ⟨hne, ?_⟩
          intro s' tr h
          simp only [StepRes.cont.injEq] at h
          obtain ⟨e1, e2⟩ := h
          rw [← e1]
          exact hseg
        · rw [chunkIteration_eq_disabled_some cfg tsStr s i c hdl hd hh' hr' hhd]
          rcases hrn : renameIfStaged { s with handle := none } i.renameFail
            with _ | ⟨s2, tr2⟩
          · simp only [hrn]
            exact ⟨hne, fun s' tr h => by cases h⟩
          · simp only [hrn]
            have hstep := renameIfStaged_c5 { s with handle := none } i.renameFail s2 tr2 hrn
              (fun p hp => (hseg p hp).2) hne
            constructor
            · exact hstep.1
            · intro s' tr h
              simp only [StepRes.cont.injEq] at h
              obtain ⟨e1, e2⟩ := h
              rw [← e1]
              intro p hp
              simp at hp

theorem relayLoop_c5 (cfg : Config) (tsStr : Nat → FPath) :
    ∀ (l : List ChunkIn) (s : RSt), segCoherent s → noEmptyFinal s.fs →
      noEmptyFinal (relayLoop cfg tsStr s l).st.fs
  | [], s, _, hne => hne
  | i :: rest, s, hseg, hne => by
    unfold relayLoop
    rcases hc : chunkIteration cfg tsStr s i with s1 | s1 | s1
    case cont tr =>
      simp only [hc]
      have hstep := chunkIteration_c5 cfg tsStr s i hseg hne
      have hne1 : noEmptyFinal s1.fs := by
        have := hstep.1
        rw [hc] at this
        exact this
      have hseg1 : segCoherent s1 := hstep.2 s1 tr hc
      have hrec := relayLoop_c5 cfg tsStr rest s1 hseg1 hne1
      rcases hrl : relayLoop cfg tsStr s1 rest with ⟨s2, tr2⟩ | ⟨s2, tr2, ek⟩ <;>
        rw [hrl] at hrec <;> simp only [hrl, InnerRes.st] <;> exact hrec
    case brk tr =>
      simp only [hc, InnerRes.st]
      have := (chunkIteration_c5 cfg tsStr s i hseg hne).1
      rw [hc] at this
      exact this
    case exc tr ek =>
      simp only [hc, InnerRes.st]
      have := (chunkIteration_c5 cfg tsStr s i hseg hne).1
      rw [hc] at this
      exact this

theorem outerIteration_c5 (cfg : Config) (tsStr : Nat → FPath) (st : RSt) (oin : OuterIn)
    (hne : noEmptyFinal st.fs) : noEmptyFinal (outerIteration cfg tsStr st oin).1.fs := by
  unfold outerIteration
  by_cases hs : oin.spawnFail = true
  · rw [if_pos hs]
    exact hne
  · rw [if_neg hs]
    have h0 : segCoherent { st with segStart := none, segPath := none } := by
      intro p hp
      simp at hp
    have hrun := relayLoop_c5 cfg tsStr oin.chunks
      { st with segStart := none, segPath := none } h0 hne
    rcases hrl : relayLoop cfg tsStr { st with segStart := none, segPath := none } oin.chunks
      with ⟨s1, tr⟩ | ⟨s1, tr, ek⟩
    · rw [hrl] at hrun
      simp only [hrl]
      by_cases hcr : ¬oin.camRet = 0 ∧ oin.aliveAfter = true
      · rw [if_pos hcr]
        exact hrun
      · rw [if_neg hcr]
        exact hrun
    · rw [hrl] at hrun
      simp only [hrl]
      exact hrun

theorem cameraStreamingLoop_c5 (cfg : Config) (tsStr : Nat → FPath) :
    ∀ (ins : List (Bool × OuterIn)) (st : RSt), noEmptyFinal st.fs →
      noEmptyFinal (cameraStreamingLoop cfg tsStr st ins).1.fs
  | [], st, hne => hne
  | (alive, oin) :: rest, st, hne => by
    unfold cameraStreamingLoop
    by_cases ha : alive = true
    · rw [if_pos ha]
      simp only
      exact cameraStreamingLoop_c5 cfg tsStr rest _ (outerIteration_c5 cfg tsStr st oin hne)
    · rw [if_neg ha]
      exact hne

theorem renameIfStaged_true_tr (s : RSt) (s1 : RSt) (tr1 : List Ev)
    (h : renameIfStaged s true = some (s1, tr1)) : tr1 = [] := by
  rcases hq : s.segPath with _ | q
  · rw [renameIfStaged_eq_noPath s true hq] at h
    simp only [Option.some.injEq, Prod.mk.injEq] at h
    exact h.2.symm
  · by_cases hex : existsA (pyWithSuffix q ".tmp".data) s.fs = true
    · rw [renameIfStaged_eq_fail s q hq hex] at h
      simp at h
    · rw [renameIfStaged_eq_noTmp s true q hq (by simpa using hex)] at h
      simp only [Option.some.injEq, Prod.mk.injEq] at h
      exact h.2.symm

theorem chunkIteration_renameFail_segDones (cfg : Config) (tsStr : Nat → FPath) (s : RSt)
    (i : ChunkIn) (h : i.renameFail = true) :
    segDones (chunkIteration cfg tsStr s i).tr = [] := by
  rcases hd : i.data with _ | c
  · rw [chunkIteration_eq_eof cfg tsStr s i hd]
    rfl
  · by_cases hh : i.hlsFail = true
    · rw [chunkIteration_hlsFail cfg tsStr s i c hd hh]
      rfl
    · have hh' : i.hlsFail = false := by simpa using hh
      by_cases hr : i.recFlag = true
      · by_cases hrot : rotateDue cfg s.segStart i.now = true
        · rw [chunkIteration_eq_rotate cfg tsStr s i c hd hh' hr hrot]
          rcases hcl : (match s.handle with
               | none => some (s, ([] : List Ev))
               | some _ => renameIfStaged s i.renameFail) with _ | ⟨s1, tr1⟩
          · simp only [hcl]
            rfl
          · simp only [hcl]
            have htr1 : tr1 = [] := by
              rcases hhd : s.handle with _ | hdl
              · rw [hhd] at hcl
                simp only [Option.some.injEq, Prod.mk.injEq] at hcl
                exact hcl.2.symm
              · rw [hhd] at hcl
                rw [h] at hcl
                exact renameIfStaged_true_tr s s1 tr1 hcl
            rw [show (writeToSegment
                { handle := some (pyWithSuffix (finalNameOf (tsStr i.now)) ".tmp".data),
                  segStart := some i.now, segPath := some (finalNameOf (tsStr i.now)),
                  fs := createA (pyWithSuffix (finalNameOf (tsStr i.now)) ".tmp".data) s1.fs }
                (Ev.hls c :: tr1) i.writeFail c).tr = Ev.hls c :: tr1 from writeToSegment_tr _ _ _ _,
              htr1]
            rfl
        · have hrot' : rotateDue cfg s.segStart i.now = false := by simpa using hrot
          rw [chunkIteration_eq_norotate cfg tsStr s i c hd hh' hr hrot',
            writeToSegment_tr]
          rfl
      · have hr' : i.recFlag = false := by simpa using hr
        rcases hhd : s.handle with _ | hdl
        · rw [chunkIteration_eq_disabled_none cfg tsStr s i c hd hh' hr' hhd]
          rfl
        · rw [chunkIteration_eq_disabled_some cfg tsStr s i c hdl hd hh' hr' hhd]
          rcases hrn : renameIfStaged { s with handle := none } i.renameFail with _ | ⟨s2, tr2⟩
          · simp only [hrn]
            rfl
          · simp only [hrn]
            have htr2 : tr2 = [] := by
              rw [h] at hrn
              exact renameIfStaged_true_tr _ s2 tr2 hrn
            simp only [StepRes.tr, htr2]
            rfl

theorem mem_segDones : ∀ (tr : List Ev) (p : FPath), Ev.segDone p ∈ tr → p ∈ segDones tr
  | [], p, h => absurd h (List.not_mem_nil _)
  | e :: tr, p, h => by
    rcases List.mem_cons.mp h with h1 | h1
    · rw [← h1]
      simp [segDones]
    · have := mem_segDones tr p h1
      cases e <;> simp [segDones, this]

/-! ## Claim C5: empty or failed staging is never promoted -/

/-- C5: across any run of the recorder (including injected write and rename
failures and arbitrary `is_recording` toggling), no file matching the final
`raw_*.h264` pattern is ever empty; and an iteration whose staging rename
raises promotes nothing: it emits no segment-completion event and makes no
new final-pattern file appear. -/
theorem no_empty_final_segment (cfg : Config) (tsStr : Nat → FPath) :
    (∀ (ins : List (Bool × OuterIn)) (p : FPath) (cs : List Chunk),
       lookupA p (cameraStreamingLoop cfg tsStr initRSt ins).1.fs = some cs →
       matchesFinal p = true → cs ≠ []) ∧
    (∀ (s : RSt) (i : ChunkIn), i.renameFail = true →
       segDones (chunkIteration cfg tsStr s i).tr = [] ∧
       (∀ p, matchesFinal p = true →
         (lookupA p (chunkIteration cfg tsStr s i).st.fs).isSome = true →
         (lookupA p s.fs).isSome = true)) := by
  constructor
  · intro ins p cs hl hm
    have h0 : noEmptyFinal initRSt.fs := by
      intro p' cs' hl' hm'
      simp [initRSt, lookupA] at hl'
    exact cameraStreamingLoop_c5 cfg tsStr ins initRSt h0 p cs hl hm
  · intro s i h
    refine ⟨chunkIteration_renameFail_segDones cfg tsStr s i h, ?_⟩
    intro p hm hsome
    rcases chunkIteration_finals cfg tsStr s i p hm hsome with h1 | h1
    · exact h1
    · have hmem := mem_segDones _ p h1
      rw [chunkIteration_renameFail_segDones cfg tsStr s i h] at hmem
      simp at hmem

/-- C5 witness: in a concrete run that completes one segment the final file's
content is the nonempty chunk list, and a concrete iteration with a raising
rename promotes nothing. -/
theorem no_empty_final_segment_wit :
    (([1] : List Chunk) ≠ []) ∧
    segDones (chunkIteration cfgD tsDemo initRSt
      { data := some 5, hlsFail := false, recFlag := true, now := 0,
        writeFail := false, renameFail := true }).tr = [] := by
  have h := no_empty_final_segment cfgD tsDemo
  refine ⟨h.1 [(true, oinOf [ciok 1 0 true, ciok 2 1 false])] (finalNameOf (tsDemo 0)) [1]
    (by decide) (by decide), ?_⟩
  exact (h.2 initRSt _ rfl).1

/-! ## Claim C1: archive write failures restart the pipeline -/

theorem relayLoop_writeFail (cfg : Config) (tsStr : Nat → FPath) (s : RSt) (i : ChunkIn)
    (rest : List ChunkIn) (c : Chunk) (h0 : s.segStart = none) (h1 : i.data = some c)
    (h2 : i.hlsFail = false) (h3 : i.recFlag = true) (h4 : i.writeFail = true)
    (h5 : i.renameFail = false) :
    ∃ s' tr, relayLoop cfg tsStr s (i :: rest) = .raised s' tr ExcKind.writeErr ∧
      Ev.hls c ∈ tr := by
  have hrot : rotateDue cfg s.segStart i.now = true := by
    rw [h0]
    rfl
  have hstep := chunkIteration_eq_rotate cfg tsStr s i c h1 h2 h3 hrot
  have hclose : ∃ s1 tr1, (match s.handle with
       | none => some (s, ([] : List Ev))
       | some _ => renameIfStaged s i.renameFail) = some (s1, tr1) := by
    rcases hhd : s.handle with _ | hdl
    · exact ⟨s, [], rfl⟩
    · rw [h5]
      rcases hq : s.segPath with _ | q
      · exact ⟨s, [], renameIfStaged_eq_noPath s false hq⟩
      · by_cases hex : existsA (pyWithSuffix q ".tmp".data) s.fs = true
        · exact ⟨_, _, renameIfStaged_eq_ok s q hq hex⟩
        · exact ⟨s, [], renameIfStaged_eq_noTmp s false q hq (by simpa using hex)⟩
  obtain ⟨s1, tr1, hcl⟩ := hclose
  have hchunk : chunkIteration cfg tsStr s i =
      .exc { handle := some (pyWithSuffix (finalNameOf (tsStr i.now)) ".tmp".data),
             segStart := some i.now, segPath := some (finalNameOf (tsStr i.now)),
             fs := createA (pyWithSuffix (finalNameOf (tsStr i.now)) ".tmp".data) s1.fs }
        (Ev.hls c :: tr1) .writeErr := by
    rw [hstep]
    simp only [hcl]
    rw [h4, writeToSegment_eq_fail _ _ _
      (pyWithSuffix (finalNameOf (tsStr i.now)) ".tmp".data) rfl]
  refine ⟨{ handle := some (pyWithSuffix (finalNameOf (tsStr i.now)) ".tmp".data),
            segStart := some i.now, segPath := some (finalNameOf (tsStr i.now)),
            fs := createA (pyWithSuffix (finalNameOf (tsStr i.now)) ".tmp".data) s1.fs },
          Ev.hls c :: tr1, ?_, List.mem_cons_self _ _⟩
  unfold relayLoop
  simp only [hchunk]

theorem renameIfStaged_false_some (s : RSt) :
    ∃ s1 tr1, renameIfStaged s false = some (s1, tr1) ∧ s1.handle = s.handle ∧
      s1.segStart = s.segStart ∧ s1.segPath = s.segPath := by
  rcases hq : s.segPath with _ | q
  · exact ⟨s, [], renameIfStaged_eq_noPath s false hq, rfl, rfl, hq⟩
  · by_cases hex : existsA (pyWithSuffix q ".tmp".data) s.fs = true
    · exact ⟨_, _, renameIfStaged_eq_ok s q hq hex, rfl, rfl, hq⟩
    · exact ⟨s, [], renameIfStaged_eq_noTmp s false q hq (by simpa using hex), rfl, rfl, hq⟩

theorem chunkIteration_writeFail (cfg : Config) (tsStr : Nat → FPath) (s : RSt) (i : ChunkIn)
    (c : Chunk) (h1 : i.data = some c) (h2 : i.hlsFail = false) (h3 : i.recFlag = true)
    (h4 : i.writeFail = true) (h5 : i.renameFail = false)
    (h6 : rotateDue cfg s.segStart i.now = true ∨ s.handle.isSome = true) :
    ∃ s' tr, chunkIteration cfg tsStr s i = .exc s' tr ExcKind.writeErr ∧ Ev.hls c ∈ tr := by
  by_cases hrot : rotateDue cfg s.segStart i.now = true
  · rw [chunkIteration_eq_rotate cfg tsStr s i c h1 h2 h3 hrot]
    have hclose : ∃ s1 tr1, (match s.handle with
         | none => some (s, ([] : List Ev))
         | some _ => renameIfStaged s i.renameFail) = some (s1, tr1) := by
      rcases hhd : s.handle with _ | hdl
      · exact ⟨s, [], rfl⟩
      · rw [h5]
        obtain ⟨s1, tr1, hrn, _, _, _⟩ := renameIfStaged_false_some s
        exact ⟨s1, tr1, hrn⟩
    obtain ⟨s1, tr1, hcl⟩ := hclose
    simp only [hcl]
    rw [h4, writeToSegment_eq_fail _ _ _
      (pyWithSuffix (finalNameOf (tsStr i.now)) ".tmp".data) rfl]
    exact ⟨_, _, rfl, List.mem_cons_self _ _⟩
  · rcases h6 with h6 | h6
    · exact absurd h6 hrot
    · obtain ⟨hdl, hhd⟩ := Option.isSome_iff_exists.mp h6
      have hrot' : rotateDue cfg s.segStart i.now = false := by simpa using hrot
      rw [chunkIteration_eq_norotate cfg tsStr s i c h1 h2 h3 hrot']
      rw [h4, writeToSegment_eq_fail s [Ev.hls c] c hdl hhd]
      exact ⟨_, _, rfl, List.mem_cons_self _ _⟩

theorem chunkIteration_ok_cont (cfg : Config) (tsStr : Nat → FPath) (s : RSt) (j : ChunkIn)
    (cj : Chunk) (h1 : j.data = some cj) (h2 : j.hlsFail = false) (h3 : j.writeFail = false)
    (h4 : j.renameFail = false) (hcoh : s.segStart.isSome = true → s.handle.isSome = true) :
    ∃ s1 tr1, chunkIteration cfg tsStr s j = .cont s1 tr1 ∧
      (s1.segStart.isSome = true → s1.handle.isSome = true) := by
  by_cases hr : j.recFlag = true
  · by_cases hrot : rotateDue cfg s.segStart j.now = true
    · rw [chunkIteration_eq_rotate cfg tsStr s j cj h1 h2 hr hrot]
      have hclose : ∃ s1 tr1, (match s.handle with
           | none => some (s, ([] : List Ev))
           | some _ => renameIfStaged s j.renameFail) = some (s1, tr1) := by
        rcases hhd : s.handle with _ | hdl
        · exact ⟨s, [], rfl⟩
        · rw [h4]
          obtain ⟨s1, tr1, hrn, _, _, _⟩ := renameIfStaged_false_some s
          exact ⟨s1, tr1, hrn⟩
      obtain ⟨s1, tr1, hcl⟩ := hclose
      simp only [hcl]
      rw [h3, writeToSegment_eq_ok _ _ cj
        (pyWithSuffix (finalNameOf (tsStr j.now)) ".tmp".data) rfl]
      exact ⟨_, _, rfl, fun _ => rfl⟩
    · have hrot' : rotateDue cfg s.segStart j.now = false := by simpa using hrot
      have hss : s.segStart.isSome = true := by
        rcases hq : s.segStart with _ | t
        · rw [hq] at hrot'
          simp [rotateDue] at hrot'
        · rfl
      obtain ⟨hdl, hhd⟩ := Option.isSome_iff_exists.mp (hcoh hss)
      rw [chunkIteration_eq_norotate cfg tsStr s j cj h1 h2 hr hrot']
      rw [h3, writeToSegment_eq_ok s [Ev.hls cj] cj hdl hhd]
      exact ⟨_, _, rfl, fun h => hcoh h⟩
  · have hr' : j.recFlag = false := by simpa using hr
    rcases hhd : s.handle with _ | hdl
    · rw [chunkIteration_eq_disabled_none cfg tsStr s j cj h1 h2 hr' hhd]
      exact ⟨s, _, rfl, hcoh⟩
    · rw [chunkIteration_eq_disabled_some cfg tsStr s j cj hdl h1 h2 hr' hhd]
      rw [h4]
      obtain ⟨s1, tr1, hrn, _, _, _⟩ := renameIfStaged_false_some { s with handle := none }
      simp only [hrn]
      refine ⟨_, _, rfl, ?_⟩
      intro h
      simp at h

theorem relayLoop_writeFail_mid (cfg : Config) (tsStr : Nat → FPath) :
    ∀ (pre : List ChunkIn) (s : RSt),
      (s.segStart.isSome = true → s.handle.isSome = true) →
      (∀ j ∈ pre, j.data.isSome = true ∧ j.hlsFail = false ∧ j.writeFail = false ∧
        j.renameFail = false) →
      ∀ (i : ChunkIn) (rest : List ChunkIn) (c : Chunk),
        i.data = some c → i.hlsFail = false → i.recFlag = true → i.writeFail = true →
        i.renameFail = false →
        ∃ s' tr, relayLoop cfg tsStr s (pre ++ i :: rest) = .raised s' tr ExcKind.writeErr ∧
          Ev.hls c ∈ tr
  | [], s, hcoh, _, i, rest, c, h1, h2, h3, h4, h5 => by
    have h6 : rotateDue cfg s.segStart i.now = true ∨ s.handle.isSome = true := by
      rcases hq : s.segStart with _ | t
      · left
        rfl
      · right
        apply hcoh
        rw [hq]
        rfl
    obtain ⟨s', tr, hchunk, hmem⟩ :=
      chunkIteration_writeFail cfg tsStr s i c h1 h2 h3 h4 h5 h6
    refine ⟨s', tr, ?_, hmem⟩
    rw [List.nil_append]
    unfold relayLoop
    simp only [hchunk]
  | j :: pre, s, hcoh, hok, i, rest, c, h1, h2, h3, h4, h5 => by
    obtain ⟨hdj, hhj, hwj, hrj⟩ := hok j (List.mem_cons_self _ _)
    obtain ⟨cj, hcj⟩ := Option.isSome_iff_exists.mp hdj
    obtain ⟨s1, tr1, hstep, hcoh1⟩ :=
      chunkIteration_ok_cont cfg tsStr s j cj hcj hhj hwj hrj hcoh
    obtain ⟨s', tr, hrec, hmem⟩ := relayLoop_writeFail_mid cfg tsStr pre s1 hcoh1
      (fun j' hj' => hok j' (List.mem_cons_of_mem _ hj')) i rest c h1 h2 h3 h4 h5
    refine ⟨s', tr1 ++ tr, ?_, List.mem_append.mpr (Or.inr hmem)⟩
    rw [List.cons_append]
    unfold relayLoop
    simp only [hstep, hrec]

/-- C1 (corrected): the archive write of a chunk to the open segment's
staging file is not protected inside the relay.  For any loop state in which
a segment is open (or this iteration opens one) and for a failing chunk at
any position of the incarnation's input, the chunk iteration raises the write
error after the chunk was delivered to the transcode stdin; the relay run of
the incarnation raises (so subsequent chunks of that incarnation are not
delivered); the exception is caught and logged at the outer loop boundary
with the 5 second cooldown; and each following alive iteration spawns a
fresh capture/transcode pipeline. -/
theorem archive_write_failure_restarts_pipeline (cfg : Config) (tsStr : Nat → FPath) :
    (∀ (s : RSt) (i : ChunkIn) (c : Chunk),
       i.data = some c → i.hlsFail = false → i.recFlag = true → i.writeFail = true →
       i.renameFail = false →
       (rotateDue cfg s.segStart i.now = true ∨ s.handle.isSome = true) →
       ∃ s' tr, chunkIteration cfg tsStr s i = .exc s' tr ExcKind.writeErr ∧
         Ev.hls c ∈ tr) ∧
    (∀ (s : RSt) (pre : List ChunkIn) (i : ChunkIn) (rest : List ChunkIn) (c : Chunk),
       (s.segStart.isSome = true → s.handle.isSome = true) →
       (∀ j ∈ pre, j.data.isSome = true ∧ j.hlsFail = false ∧ j.writeFail = false ∧
         j.renameFail = false) →
       i.data = some c → i.hlsFail = false → i.recFlag = true → i.writeFail = true →
       i.renameFail = false →
       ∃ s' tr, relayLoop cfg tsStr s (pre ++ i :: rest) = .raised s' tr ExcKind.writeErr ∧
         Ev.hls c ∈ tr) ∧
    (∀ (st : RSt) (oin : OuterIn) (pre : List ChunkIn) (i : ChunkIn) (rest : List ChunkIn)
       (c : Chunk),
       oin.spawnFail = false → oin.chunks = pre ++ i :: rest →
       (∀ j ∈ pre, j.data.isSome = true ∧ j.hlsFail = false ∧ j.writeFail = false ∧
         j.renameFail = false) →
       i.data = some c → i.hlsFail = false → i.recFlag = true → i.writeFail = true →
       i.renameFail = false →
       Ev.loopError ∈ (outerIteration cfg tsStr st oin).2 ∧
       Ev.sleep 5 ∈ (outerIteration cfg tsStr st oin).2) ∧
    (∀ (st : RSt) (ins : List (Bool × OuterIn)),
       (∀ x ∈ ins, x.1 = true ∧ x.2.spawnFail = false) →
       countSpawn (cameraStreamingLoop cfg tsStr st ins).2 = ins.length) := by
  refine ⟨?_, ?_, ?_, fun st ins h => countSpawn_cameraStreamingLoop cfg tsStr ins st h⟩
  · exact fun s i c h1 h2 h3 h4 h5 h6 =>
      chunkIteration_writeFail cfg tsStr s i c h1 h2 h3 h4 h5 h6
  · exact fun s pre i rest c hcoh hokpre h1 h2 h3 h4 h5 =>
      relayLoop_writeFail_mid cfg tsStr pre s hcoh hokpre i rest c h1 h2 h3 h4 h5
  · intro st oin pre i rest c hs hch hokpre h1 h2 h3 h4 h5
    obtain ⟨s', tr, hrl, hmem⟩ := relayLoop_writeFail_mid cfg tsStr pre
      { st with segStart := none, segPath := none }
      (by intro hx; simp at hx) hokpre i rest c h1 h2 h3 h4 h5
    unfold outerIteration
    rw [if_neg (by simp [hs]), hch]
    simp only [hrl]
    by_cases hcln : oin.cleanFail = true <;> simp [hcln]

/-- C1 counterexample: with recording enabled, the first chunk's archive
write raises.  The relay run raises out of the inner loop — the following
chunk is never delivered to the transcode stdin within that pipeline — and
across the next alive iteration the pipeline is spawned a second time.  The
error is logged, but the live path is not unaffected and the loop does not
continue delivering subsequent chunks without restarting the pipeline. -/
theorem archive_write_failure_restarts_pipeline_cex :
    (relayLoop cfgD tsDemo initRSt [ciWriteFail 1 0, ciok 2 1 true]).raisedKind =
      some ExcKind.writeErr ∧
    Ev.hls 2 ∉ (relayLoop cfgD tsDemo initRSt [ciWriteFail 1 0, ciok 2 1 true]).tr ∧
    Ev.loopError ∈ (cameraStreamingLoop cfgD tsDemo initRSt
      [(true, oinOf [ciWriteFail 1 0, ciok 2 1 true]), (true, oinOf [ciok 2 1 true])]).2 ∧
    countSpawn (cameraStreamingLoop cfgD tsDemo initRSt
      [(true, oinOf [ciWriteFail 1 0, ciok 2 1 true]), (true, oinOf [ciok 2 1 true])]).2 = 2 := by
  refine ⟨?_, ?_, ?_, ?_⟩ <;> decide

/-- C1 witness: a mid-segment archive write failure — the first chunk opens
the segment, the second chunk's write raises inside the open window — ends
the relay run with the write error after that chunk was delivered to the
live path. -/
theorem archive_write_failure_restarts_pipeline_wit :
    ∃ s' tr, relayLoop cfgD tsDemo initRSt [ciok 1 0 true, ciWriteFail 2 1] =
      .raised s' tr ExcKind.writeErr ∧ Ev.hls 2 ∈ tr := by
  have h := archive_write_failure_restarts_pipeline cfgD tsDemo
  exact h.2.1 initRSt [ciok 1 0 true] (ciWriteFail 2 1) [] 2 (by decide) (by decide)
    rfl rfl rfl rfl rfl

/-! ## Claim C3 machinery: ghost view of failure-free runs -/

theorem stagingNameOf_def (ts : FPath) :
    pyWithSuffix (finalNameOf ts) ".tmp".data = stagingNameOf ts := rfl

theorem renderClosed_append (tsStr : Nat → FPath) (closed : List (Nat × List Chunk))
    (x : Nat × List Chunk) :
    renderClosed tsStr (closed ++ [x]) =
      (finalNameOf (tsStr x.1), x.2) :: renderClosed tsStr closed := by
  unfold renderClosed
  simp

theorem renderClosed_ne_staging (tsStr : Nat → FPath) (closed : List (Nat × List Chunk))
    (ts : FPath) : ∀ e ∈ renderClosed tsStr closed, e.1 ≠ stagingNameOf ts := by
  intro e he
  unfold renderClosed at he
  obtain ⟨x, hx, hxe⟩ := List.mem_map.mp he
  rw [← hxe]
  intro hh
  exact stagingNameOf_ne_finalNameOf ts (tsStr x.1) hh.symm

theorem renderClosed_ne_final (tsStr : Nat → FPath) (hinj : Function.Injective tsStr)
    (closed : List (Nat × List Chunk)) (t : Nat)
    (hlt : ∀ u ∈ closed.map Prod.fst, u ≠ t) :
    ∀ e ∈ renderClosed tsStr closed, e.1 ≠ finalNameOf (tsStr t) := by
  intro e he
  unfold renderClosed at he
  obtain ⟨x, hx, hxe⟩ := List.mem_map.mp he
  rw [← hxe]
  intro hh
  have h1 : tsStr x.1 = tsStr t := finalNameOf_injective hh
  have h2 : x.1 = t := hinj h1
  have h3 : x.1 ∈ closed.map Prod.fst :=
    List.mem_map.mpr ⟨x, List.mem_reverse.mp hx, rfl⟩
  exact hlt x.1 h3 h2

theorem existsA_head (p : FPath) (cs : List Chunk) (l : FSys) :
    existsA p ((p, cs) :: l) = true := by
  simp [existsA, lookupA]

theorem appendA_staging_head (p : FPath) (cs : List Chunk) (c : Chunk) (l : FSys)
    (hne : ∀ e ∈ l, e.1 ≠ p) :
    appendA p c ((p, cs) :: l) = (p, cs ++ [c]) :: l := by
  simp [appendA, appendA_of_not_mem _ _ _ hne]

theorem createAppend_staging (p : FPath) (c : Chunk) (l : FSys)
    (hne : ∀ e ∈ l, e.1 ≠ p) :
    appendA p c (createA p l) = (p, [c]) :: l := by
  unfold createA
  rw [eraseA_of_not_mem _ _ hne]
  simpa using appendA_staging_head p [] c l hne

theorem renameA_staging (tsStr : Nat → FPath) (hinj : Function.Injective tsStr)
    (closed : List (Nat × List Chunk)) (t : Nat) (cs : List Chunk)
    (hlt : ∀ u ∈ closed.map Prod.fst, u ≠ t) :
    renameA (stagingNameOf (tsStr t)) (finalNameOf (tsStr t))
        ((stagingNameOf (tsStr t), cs) :: renderClosed tsStr closed) =
      (finalNameOf (tsStr t), cs) :: renderClosed tsStr closed := by
  unfold renameA
  rw [show lookupA (stagingNameOf (tsStr t))
      ((stagingNameOf (tsStr t), cs) :: renderClosed tsStr closed) = some cs from by
    simp [lookupA]]
  have h1 : eraseA (stagingNameOf (tsStr t))
      ((stagingNameOf (tsStr t), cs) :: renderClosed tsStr closed) =
      renderClosed tsStr closed := by
    simp [eraseA, eraseA_of_not_mem _ _ (renderClosed_ne_staging tsStr closed (tsStr t))]
  rw [h1, eraseA_of_not_mem _ _ (renderClosed_ne_final tsStr hinj closed t hlt)]

theorem lookupA_of_mem_unique (k : FPath) (v : List Chunk) : ∀ l : FSys,
    (k, v) ∈ l → (∀ e ∈ l, e.1 = k → e.2 = v) → lookupA k l = some v
  | [], h, _ => absurd h (List.not_mem_nil _)
  | e :: l, h, huniq => by
    by_cases hk : e.1 = k
    · rw [lookupA, if_pos hk, huniq e (List.mem_cons_self e l) hk]
    · rcases List.mem_cons.mp h with h1 | h1
      · rw [← h1] at hk
        simp at hk
      · rw [lookupA, if_neg hk]
        exact lookupA_of_mem_unique k v l h1
          (fun e' he' => huniq e' (List.mem_cons_of_mem _ he'))

theorem lookupA_renderClosed (tsStr : Nat → FPath) (hinj : Function.Injective tsStr)
    (closed : List (Nat × List Chunk)) (hnd : (closed.map Prod.fst).Nodup) :
    ∀ x ∈ closed, lookupA (finalNameOf (tsStr x.1)) (renderClosed tsStr closed) = some x.2 := by
  intro x hx
  apply lookupA_of_mem_unique
  · unfold renderClosed
    exact List.mem_map.mpr ⟨x, List.mem_reverse.mpr hx, rfl⟩
  · intro e he hk
    unfold renderClosed at he
    obtain ⟨y, hy, hye⟩ := List.mem_map.mp he
    rw [← hye] at hk ⊢
    simp only at hk ⊢
    have h1 : tsStr y.1 = tsStr x.1 := finalNameOf_injective hk
    have h2 : y.1 = x.1 := hinj h1
    have h3 : y = x :=
      List.inj_on_of_nodup_map hnd (List.mem_reverse.mp hy) hx h2
    rw [h3]

theorem openContent_renderSt (tsStr : Nat → FPath) (closed : List (Nat × List Chunk))
    (cur : Option (Nat × List Chunk)) :
    openContent (renderSt tsStr closed cur) = curContent cur := by
  rcases cur with _ | x
  · rfl
  · unfold openContent renderSt renderCur curContent
    simp [lookupD, lookupA]

theorem segContents_append : ∀ (l : List (Nat × List Chunk)) (x : Nat × List Chunk),
    segContents (l ++ [x]) = segContents l ++ x.2
  | [], x => by simp [segContents]
  | y :: l, x => by simp [segContents, segContents_append l x]


theorem writeToSegment_eq_ok_mk (hdl : FPath) (a : Option Nat) (b : Option FPath) (fs : FSys)
    (tr : List Ev) (c : Chunk) :
    writeToSegment ⟨some hdl, a, b, fs⟩ tr false c = .cont ⟨some hdl, a, b, appendA hdl c fs⟩ tr :=
  rfl

theorem renderSt_closed_append (tsStr : Nat → FPath) (closed : List (Nat × List Chunk))
    (x : Nat × List Chunk) (cur : Option (Nat × List Chunk)) :
    renderSt tsStr (closed ++ [x]) cur =
      { handle := cur.map (fun y => stagingNameOf (tsStr y.1)),
        segStart := cur.map (fun y => y.1),
        segPath := cur.map (fun y => finalNameOf (tsStr y.1)),
        fs := renderCur tsStr cur ++
          ((finalNameOf (tsStr x.1), x.2) :: renderClosed tsStr closed) } := by
  unfold renderSt
  rw [renderClosed_append]

theorem relayLoop_shape (cfg : Config) (tsStr : Nat → FPath)
    (hinj : Function.Injective tsStr) :
    ∀ (ins : List ChunkIn) (closed : List (Nat × List Chunk))
      (cur : Option (Nat × List Chunk)),
      (∀ i ∈ ins, i.data.isSome = true ∧ i.hlsFail = false ∧ i.writeFail = false ∧
        i.renameFail = false) →
      List.Pairwise (· < ·) (ins.map (fun j => j.now)) →
      (∀ t ∈ stamps closed cur, ∀ j ∈ ins, t < j.now) →
      List.Pairwise (· < ·) (stamps closed cur) →
      (∀ x, cur = some x → x.2 ≠ []) →
      ∃ closed2 cur2 tr,
        relayLoop cfg tsStr (renderSt tsStr closed cur) ins =
          .finished (renderSt tsStr closed2 cur2) tr ∧
        (∃ delta, closed2 = closed ++ delta ∧
          segDones tr = delta.map (fun x => finalNameOf (tsStr x.1))) ∧
        segContents closed2 ++ curContent cur2 =
          segContents closed ++ curContent cur ++ enabledChunks ins ∧
        List.Pairwise (· < ·) (stamps closed2 cur2) ∧
        (∀ x, cur2 = some x → x.2 ≠ [])
  | [], closed, cur, _, _, _, hst, hcur =>
    ⟨closed, cur, [], rfl, ⟨[], by simp, rfl⟩, by simp [enabledChunks], hst, hcur⟩
  | i :: rest, closed, cur, hok, hnows, hbound, hst, hcur => by
    obtain ⟨hdata, hhls, hwrite, hrename⟩ := hok i (List.mem_cons_self _ _)
    obtain ⟨c, hc⟩ := Option.isSome_iff_exists.mp hdata
    have hokr : ∀ j ∈ rest, j.data.isSome = true ∧ j.hlsFail = false ∧ j.writeFail = false ∧
        j.renameFail = false := fun j hj => hok j (List.mem_cons_of_mem _ hj)
    have hpc := List.pairwise_cons.mp (show List.Pairwise (· < ·)
      (i.now :: rest.map (fun j => j.now)) from by simpa using hnows)
    have hnowsr : List.Pairwise (· < ·) (rest.map (fun j => j.now)) := hpc.2
    have hlt_i : ∀ j ∈ rest, i.now < j.now :=
      fun j hj => hpc.1 j.now (List.mem_map_of_mem _ hj)
    have hbound_i : ∀ t ∈ stamps closed cur, t < i.now :=
      fun t ht => hbound t ht i (List.mem_cons_self _ _)
    have hboundr : ∀ t ∈ stamps closed cur, ∀ j ∈ rest, t < j.now :=
      fun t ht j hj => hbound t ht j (List.mem_cons_of_mem _ hj)
    by_cases hr : i.recFlag = true
    · rcases cur with _ | ⟨t, cs⟩
      · -- recording, no open segment: rotation opens a fresh segment
        have hchunk : chunkIteration cfg tsStr (renderSt tsStr closed none) i =
            .cont (renderSt tsStr closed (some (i.now, [c]))) [Ev.hls c] := by
          rw [chunkIteration_eq_rotate cfg tsStr (renderSt tsStr closed none) i c hc hhls hr
            rfl]
          have hclose : (match (renderSt tsStr closed none).handle with
               | none => some (renderSt tsStr closed none, ([] : List Ev))
               | some _ => renameIfStaged (renderSt tsStr closed none) i.renameFail) =
              some (renderSt tsStr closed none, ([] : List Ev)) := rfl
          simp only [hclose]
          rw [hwrite, writeToSegment_eq_ok_mk]
          congr 1
          rw [show (renderSt tsStr closed none).fs = renderClosed tsStr closed from rfl,
            createAppend_staging (pyWithSuffix (finalNameOf (tsStr i.now)) ".tmp".data) c
              (renderClosed tsStr closed) (renderClosed_ne_staging tsStr closed (tsStr i.now))]
          rfl
        obtain ⟨closed2, cur2, tr, hrun, ⟨delta, hdelta, hdones⟩, hcont, hst2, hcur2⟩ :=
          relayLoop_shape cfg tsStr hinj rest closed (some (i.now, [c])) hokr hnowsr
            (by
              intro u hu j hj
              simp only [stamps] at hu
              rcases List.mem_append.mp hu with h1 | h1
              · exact hboundr u (by simpa [stamps] using h1) j hj
              · simp at h1
                rw [h1]
                exact hlt_i j hj)
            (by
              simp only [stamps]
              refine List.pairwise_append.mpr ⟨by simpa [stamps] using hst, by simp, ?_⟩
              intro u hu v hv
              simp at hv
              rw [hv]
              exact hbound_i u (by simpa [stamps] using hu))
            (by
              intro x hx
              simp only [Option.some.injEq] at hx
              rw [← hx]
              simp)
        refine ⟨closed2, cur2, Ev.hls c :: tr, ?_, ⟨delta, hdelta, ?_⟩, ?_, hst2, hcur2⟩
        · unfold relayLoop
          simp only [hchunk, hrun, List.cons_append, List.nil_append]
        · simpa [segDones] using hdones
        · have hen : enabledChunks (i :: rest) = c :: enabledChunks rest := by
            simp only [enabledChunks, hc, hr]
          rw [hen, hcont]
          simp [curContent]
      · -- recording with an open segment
        by_cases hrot : rotateDue cfg (renderSt tsStr closed (some (t, cs))).segStart i.now
            = true
        · -- rotation: close and promote the open segment, then open a new one
          have hlt_t : ∀ u ∈ closed.map Prod.fst, u ≠ t := by
            intro u hu
            have := (List.pairwise_append.mp
              (show List.Pairwise (· < ·) (closed.map Prod.fst ++ [t]) from by
                simpa [stamps] using hst)).2.2 u hu t (by simp)
            exact Nat.ne_of_lt this
          have hex : existsA (pyWithSuffix (finalNameOf (tsStr t)) ".tmp".data)
              (renderSt tsStr closed (some (t, cs))).fs = true := by
            rw [stagingNameOf_def]
            exact existsA_head _ _ _
          have hrn := renameIfStaged_eq_ok (renderSt tsStr closed (some (t, cs)))
            (finalNameOf (tsStr t)) rfl hex
          have hfs : renameA (pyWithSuffix (finalNameOf (tsStr t)) ".tmp".data)
              (finalNameOf (tsStr t)) (renderSt tsStr closed (some (t, cs))).fs =
              (finalNameOf (tsStr t), cs) :: renderClosed tsStr closed := by
            rw [stagingNameOf_def]
            exact renameA_staging tsStr hinj closed t cs hlt_t
          have hne2 : ∀ e ∈ (finalNameOf (tsStr t), cs) :: renderClosed tsStr closed,
              e.1 ≠ stagingNameOf (tsStr i.now) := by
            intro e he
            rcases List.mem_cons.mp he with h1 | h1
            · rw [h1]
              intro hh
              exact stagingNameOf_ne_finalNameOf (tsStr i.now) (tsStr t) hh.symm
            · exact renderClosed_ne_staging tsStr closed _ e h1
          have hchunk : chunkIteration cfg tsStr (renderSt tsStr closed (some (t, cs))) i =
              .cont (renderSt tsStr (closed ++ [(t, cs)]) (some (i.now, [c])))
                [Ev.hls c, Ev.segDone (finalNameOf (tsStr t))] := by
            rw [chunkIteration_eq_rotate cfg tsStr (renderSt tsStr closed (some (t, cs)))
              i c hc hhls hr hrot]
            have hclose : (match (renderSt tsStr closed (some (t, cs))).handle with
                 | none => some (renderSt tsStr closed (some (t, cs)), ([] : List Ev))
                 | some _ => renameIfStaged (renderSt tsStr closed (some (t, cs)))
                     i.renameFail) =
                renameIfStaged (renderSt tsStr closed (some (t, cs))) i.renameFail := rfl
            rw [hclose, hrename]
            simp only [hrn]
            rw [hwrite, writeToSegment_eq_ok_mk]
            congr 1
            rw [hfs, createAppend_staging (pyWithSuffix (finalNameOf (tsStr i.now)) ".tmp".data)
              c ((finalNameOf (tsStr t), cs) :: renderClosed tsStr closed) hne2,
              renderSt_closed_append]
            rfl
          obtain ⟨closed2, cur2, tr, hrun, ⟨delta, hdelta, hdones⟩, hcont, hst2, hcur2⟩ :=
            relayLoop_shape cfg tsStr hinj rest (closed ++ [(t, cs)]) (some (i.now, [c]))
              hokr hnowsr
              (by
                intro u hu j hj
                simp only [stamps, List.map_append] at hu
                rcases List.mem_append.mp hu with h1 | h1
                · exact hboundr u (by simpa [stamps] using h1) j hj
                · simp at h1
                  rw [h1]
                  exact hlt_i j hj)
              (by
                simp only [stamps, List.map_append]
                refine List.pairwise_append.mpr ⟨by simpa [stamps] using hst, by simp, ?_⟩
                intro u hu v hv
                simp at hv
                rw [hv]
                exact hbound_i u (by simpa [stamps] using hu))
              (by
                intro x hx
                simp only [Option.some.injEq] at hx
                rw [← hx]
                simp)
          refine ⟨closed2, cur2,
            Ev.hls c :: Ev.segDone (finalNameOf (tsStr t)) :: tr, ?_,
            ⟨(t, cs) :: delta, ?_, ?_⟩, ?_, hst2, hcur2⟩
          · unfold relayLoop
            simp only [hchunk, hrun, List.cons_append, List.nil_append]
          · rw [hdelta]
            simp
          · simp only [segDones]
            rw [hdones]
            simp
          · have hen : enabledChunks (i :: rest) = c :: enabledChunks rest := by
              simp only [enabledChunks, hc, hr]
            rw [hen, hcont, segContents_append]
            simp [curContent]
        · -- within the window: append to the open segment
          have hrot' : rotateDue cfg (renderSt tsStr closed (some (t, cs))).segStart i.now =
              false := by simpa using hrot
          have hchunk : chunkIteration cfg tsStr (renderSt tsStr closed (some (t, cs))) i =
              .cont (renderSt tsStr closed (some (t, cs ++ [c]))) [Ev.hls c] := by
            rw [chunkIteration_eq_norotate cfg tsStr (renderSt tsStr closed (some (t, cs)))
              i c hc hhls hr hrot']
            rw [hwrite]
            have hwts := writeToSegment_eq_ok (renderSt tsStr closed (some (t, cs)))
              [Ev.hls c] c (stagingNameOf (tsStr t)) rfl
            rw [hwts]
            congr 1
            rw [show (renderSt tsStr closed (some (t, cs))).fs =
                (stagingNameOf (tsStr t), cs) :: renderClosed tsStr closed from rfl,
              appendA_staging_head (stagingNameOf (tsStr t)) cs c (renderClosed tsStr closed)
                (renderClosed_ne_staging tsStr closed (tsStr t))]
            rfl
          obtain ⟨closed2, cur2, tr, hrun, ⟨delta, hdelta, hdones⟩, hcont, hst2, hcur2⟩ :=
            relayLoop_shape cfg tsStr hinj rest closed (some (t, cs ++ [c])) hokr hnowsr
              (by
                intro u hu j hj
                exact hboundr u (by simpa [stamps] using hu) j hj)
              (by simpa [stamps] using hst)
              (by
                intro x hx
                simp only [Option.some.injEq] at hx
                rw [← hx]
                simp)
          refine ⟨closed2, cur2, Ev.hls c :: tr, ?_, ⟨delta, hdelta, ?_⟩, ?_, hst2, hcur2⟩
          · unfold relayLoop
            simp only [hchunk, hrun, List.cons_append, List.nil_append]
          · simpa [segDones] using hdones
          · have hen : enabledChunks (i :: rest) = c :: enabledChunks rest := by
              simp only [enabledChunks, hc, hr]
            rw [hen, hcont]
            simp [curContent]
    · have hr' : i.recFlag = false := by simpa using hr
      rcases cur with _ | ⟨t, cs⟩
      · -- disabled, nothing open
        have hchunk : chunkIteration cfg tsStr (renderSt tsStr closed none) i =
            .cont (renderSt tsStr closed none) [Ev.hls c] :=
          chunkIteration_eq_disabled_none cfg tsStr _ i c hc hhls hr' rfl
        obtain ⟨closed2, cur2, tr, hrun, ⟨delta, hdelta, hdones⟩, hcont, hst2, hcur2⟩ :=
          relayLoop_shape cfg tsStr hinj rest closed none hokr hnowsr hboundr hst
            (fun x hx => Option.noConfusion hx)
        refine ⟨closed2, cur2, Ev.hls c :: tr, ?_, ⟨delta, hdelta, ?_⟩, ?_, hst2, hcur2⟩
        · unfold relayLoop
          simp only [hchunk, hrun, List.cons_append, List.nil_append]
        · simpa [segDones] using hdones
        · have hen : enabledChunks (i :: rest) = enabledChunks rest := by
            simp only [enabledChunks, hc, hr']
          rw [hen, hcont]
      · -- disabled with an open segment: close and promote it
        have hlt_t : ∀ u ∈ closed.map Prod.fst, u ≠ t := by
          intro u hu
          have := (List.pairwise_append.mp
            (show List.Pairwise (· < ·) (closed.map Prod.fst ++ [t]) from by
              simpa [stamps] using hst)).2.2 u hu t (by simp)
          exact Nat.ne_of_lt this
        have hex : existsA (pyWithSuffix (finalNameOf (tsStr t)) ".tmp".data)
            ({ renderSt tsStr closed (some (t, cs)) with handle := none }).fs = true := by
          rw [stagingNameOf_def]
          exact existsA_head _ _ _
        have hrn := renameIfStaged_eq_ok
          { renderSt tsStr closed (some (t, cs)) with handle := none }
          (finalNameOf (tsStr t)) rfl hex
        have hfs : renameA (pyWithSuffix (finalNameOf (tsStr t)) ".tmp".data)
            (finalNameOf (tsStr t))
            ({ renderSt tsStr closed (some (t, cs)) with handle := none }).fs =
            (finalNameOf (tsStr t), cs) :: renderClosed tsStr closed := by
          rw [stagingNameOf_def]
          exact renameA_staging tsStr hinj closed t cs hlt_t
        have hchunk : chunkIteration cfg tsStr (renderSt tsStr closed (some (t, cs))) i =
            .cont (renderSt tsStr (closed ++ [(t, cs)]) none)
              [Ev.hls c, Ev.segDone (finalNameOf (tsStr t))] := by
          rw [chunkIteration_eq_disabled_some cfg tsStr
            (renderSt tsStr closed (some (t, cs))) i c (stagingNameOf (tsStr t))
            hc hhls hr' rfl]
          rw [hrename]
          simp only [hrn]
          congr 1
          rw [hfs, renderSt_closed_append]
          rfl
        obtain ⟨closed2, cur2, tr, hrun, ⟨delta, hdelta, hdones⟩, hcont, hst2, hcur2⟩ :=
          relayLoop_shape cfg tsStr hinj rest (closed ++ [(t, cs)]) none hokr hnowsr
            (by
              intro u hu j hj
              simp only [stamps, List.map_append] at hu
              exact hboundr u (by simpa [stamps] using hu) j hj)
            (by
              simp only [stamps, List.map_append]
              simpa [stamps] using hst)
            (fun x hx => Option.noConfusion hx)
        refine ⟨closed2, cur2,
          Ev.hls c :: Ev.segDone (finalNameOf (tsStr t)) :: tr, ?_,
          ⟨(t, cs) :: delta, ?_, ?_⟩, ?_, hst2, hcur2⟩
        · unfold relayLoop
          simp only [hchunk, hrun, List.cons_append, List.nil_append]
        · rw [hdelta]
          simp
        · simp only [segDones]
          rw [hdones]
          simp
        · have hen : enabledChunks (i :: rest) = enabledChunks rest := by
            simp only [enabledChunks, hc, hr']
          rw [hen, hcont, segContents_append]
          simp [curContent]

theorem lookupA_append_right (p : FPath) : ∀ (a b : FSys), (∀ e ∈ a, e.1 ≠ p) →
    lookupA p (a ++ b) = lookupA p b
  | [], b, _ => rfl
  | e :: a, b, h => by
    rw [List.cons_append, lookupA, if_neg (h e (List.mem_cons_self _ _))]
    exact lookupA_append_right p a b (fun e' he' => h e' (List.mem_cons_of_mem _ he'))

theorem renderCur_ne_final (tsStr : Nat → FPath) (cur : Option (Nat × List Chunk))
    (ts : FPath) : ∀ e ∈ renderCur tsStr cur, e.1 ≠ finalNameOf ts := by
  rcases cur with _ | y
  · intro e he
    simp [renderCur] at he
  · intro e he
    simp only [renderCur, List.mem_singleton] at he
    rw [he]
    exact stagingNameOf_ne_finalNameOf _ _

theorem tsDemo_injective : Function.Injective tsDemo := by
  intro a b h
  have := congrArg List.length h
  simpa [tsDemo] using this

/-- C3 counterexample: chunk 7 is read while `is_recording` is true, the
stream then ends; after the run chunk 7 sits only in the `.tmp` staging file
and no final `raw_*.h264` file exists at all, so the chunk does not appear in
exactly one final archive file. -/
theorem chunks_lost_without_close_cex :
    (cameraStreamingLoop cfgD tsDemo initRSt [(true, oinOf [ciok 7 0 true])]).1.fs =
      [(stagingNameOf (tsDemo 0), [7])] ∧
    matchesFinal (stagingNameOf (tsDemo 0)) = false := by
  refine ⟨?_, ?_⟩ <;> decide

/-- C3 (corrected): within a single failure-free pipeline incarnation started
fresh, with strictly increasing iteration clocks (the source leaves the
filename collision of two segment opens in the same second unspecified) and
an injective timestamp formatting, the relay preserves every enabled chunk in
order: the promoted final files in promotion order have pairwise distinct
names, each holds exactly its segment's chunks, and their concatenation
followed by the still-open staging content equals the full sequence of chunks
read while `is_recording` was observed true — no chunk lost or duplicated
across rotations.  Chunks of a segment still open when the stream ends stay
in the staging file only (see the counterexample). -/
theorem relay_archive_order_preserved (cfg : Config) (tsStr : Nat → FPath)
    (hinj : Function.Injective tsStr) (ins : List ChunkIn)
    (hok : ∀ i ∈ ins, i.data.isSome = true ∧ i.hlsFail = false ∧ i.writeFail = false ∧
      i.renameFail = false)
    (hnows : List.Pairwise (· < ·) (ins.map (fun j => j.now))) :
    ∃ closed2 cur2 tr,
      relayLoop cfg tsStr initRSt ins = .finished (renderSt tsStr closed2 cur2) tr ∧
      segDones tr = closed2.map (fun x => finalNameOf (tsStr x.1)) ∧
      (segDones tr).Nodup ∧
      (segDones tr).map (fun p => lookupD (renderSt tsStr closed2 cur2).fs p) =
        closed2.map Prod.snd ∧
      segContents closed2 ++ openContent (renderSt tsStr closed2 cur2) =
        enabledChunks ins := by
  obtain ⟨closed2, cur2, tr, hrun, ⟨delta, hdelta, hdones⟩, hcont, hst2, hcur2⟩ :=
    relayLoop_shape cfg tsStr hinj ins [] none hok hnows
      (by intro u hu; simp [stamps] at hu)
      (by simp [stamps])
      (fun x hx => Option.noConfusion hx)
  have hdelta2 : closed2 = delta := by simpa using hdelta
  have hdones2 : segDones tr = closed2.map (fun x => finalNameOf (tsStr x.1)) := by
    rw [hdones, hdelta2]
  have hpf : List.Pairwise (· < ·) (closed2.map Prod.fst) := by
    rcases cur2 with _ | x
    · simpa [stamps] using hst2
    · exact (List.pairwise_append.mp (by simpa [stamps] using hst2)).1
  have hnd : (closed2.map Prod.fst).Nodup := hpf.imp (fun hab => Nat.ne_of_lt hab)
  refine ⟨closed2, cur2, tr, hrun, hdones2, ?_, ?_, ?_⟩
  · rw [hdones2]
    rw [show closed2.map (fun x => finalNameOf (tsStr x.1)) =
        (closed2.map Prod.fst).map (fun u => finalNameOf (tsStr u)) from by
      rw [List.map_map]
      rfl]
    apply List.Nodup.map
    · intro a b hab
      exact hinj (finalNameOf_injective hab)
    · exact hnd
  · rw [hdones2, List.map_map]
    apply List.map_congr_left
    intro x hx
    have hlk := lookupA_renderClosed tsStr hinj closed2 hnd x hx
    show lookupD (renderSt tsStr closed2 cur2).fs (finalNameOf (tsStr x.1)) = x.2
    unfold lookupD
    rw [show (renderSt tsStr closed2 cur2).fs =
        renderCur tsStr cur2 ++ renderClosed tsStr closed2 from rfl]
    rw [lookupA_append_right _ _ _ (renderCur_ne_final tsStr cur2 _), hlk]
    rfl
  · rw [openContent_renderSt]
    simpa [segContents, curContent] using hcont

/-- C3 witness: a concrete failure-free run — two enabled chunks at seconds 0
and 1 and a disabled chunk at second 2 — promotes exactly one final file
holding both chunks in order. -/
theorem relay_archive_order_preserved_wit :
    ∃ closed2 cur2 tr,
      relayLoop cfgD tsDemo initRSt [ciok 1 0 true, ciok 2 1 true, ciok 3 2 false] =
        .finished (renderSt tsDemo closed2 cur2) tr ∧
      segDones tr = closed2.map (fun x => finalNameOf (tsDemo x.1)) ∧
      (segDones tr).Nodup ∧
      (segDones tr).map (fun p => lookupD (renderSt tsDemo closed2 cur2).fs p) =
        closed2.map Prod.snd ∧
      segContents closed2 ++ openContent (renderSt tsDemo closed2 cur2) =
        enabledChunks [ciok 1 0 true, ciok 2 1 true, ciok 3 2 false] :=
  relay_archive_order_preserved cfgD tsDemo tsDemo_injective
    [ciok 1 0 true, ciok 2 1 true, ciok 3 2 false] (by decide) (by decide)
